import Mathlib

/-!
Verification of the CFE scraping pipeline (src/auth.py, src/app.py,
src/main.py) against its natural-language specification.

The Python source is shallowly embedded: pure string manipulation is
modelled on `List Char` / `String`, the relevant parts of Python's
`urllib.parse` are translated function by function, browser-driven
steps (opening a URL, extracting a field, appending a CSV row) are
abstracted into oracles so that the control flow of the collection
loops can be reproduced exactly, and `pandas` tables are modelled as a
header list plus association-list rows.
-/

deriving instance DecidableEq for Except

/-! ## Python string helpers -/

/-- Whitespace characters stripped by Python's default `str.strip()`
(ASCII subset; the inputs of interest are ASCII). -/
def pyIsSpace (c : Char) : Bool :=
  c = ' ' ∨ c = '\t' ∨ c = '\n' ∨ c = '\r' ∨ c = '\x0b' ∨ c = '\x0c'

/-- Python `str.strip()` on a character list: drop whitespace from both ends. -/
def pyStrip (l : List Char) : List Char :=
  ((l.dropWhile pyIsSpace).reverse.dropWhile pyIsSpace).reverse

/-- Python `str.lower()` on one character (ASCII case folding; schemes and
host names in the URLs of interest are ASCII). -/
def pyLowerChar (c : Char) : Char := c.toLower

/-- Python `str.lower()` on a character list. -/
def lowerL (l : List Char) : List Char := l.map pyLowerChar

/-- Python `"*" * n`. -/
def asterisks (n : Nat) : String := String.mk (List.replicate n '*')

/-! ## Date model (datetime.fromisoformat / timedelta.days)

`src/app.py` parses `YYYY-MM-DD` form fields with
`datetime.fromisoformat` and compares the two dates with
`(d_to - d_from).days`.  Dates are modelled as proleptic-Gregorian
triples and the subtraction through `dateOrdinal`, the standard
`date.toordinal` day count, so that `(d_to - d_from).days` is exactly
`dateOrdinal d_to - dateOrdinal d_from` (both datetimes are midnight). -/

structure PyDate where
  year : Nat
  month : Nat
  day : Nat
deriving DecidableEq, Repr

/-- Gregorian leap-year test. -/
def isLeapYear (y : Nat) : Bool :=
  y % 4 = 0 ∧ (y % 100 ≠ 0 ∨ y % 400 = 0)

/-- Number of days in a month. -/
def daysInMonth (y m : Nat) : Nat :=
  if m = 2 then (if isLeapYear y then 29 else 28)
  else if m = 4 ∨ m = 6 ∨ m = 9 ∨ m = 11 then 30
  else 31

/-- Days in year `y` strictly before month `m`. -/
def daysBeforeMonth (y m : Nat) : Nat :=
  (match m with
    | 1 => 0 | 2 => 31 | 3 => 59 | 4 => 90 | 5 => 120 | 6 => 151
    | 7 => 181 | 8 => 212 | 9 => 243 | 10 => 273 | 11 => 304 | _ => 334)
  + (if 2 < m ∧ isLeapYear y then 1 else 0)

/-- `datetime.date.toordinal`: day number with 0001-01-01 as day 1. -/
def dateOrdinal (d : PyDate) : Nat :=
  365 * (d.year - 1) + (d.year - 1) / 4 - (d.year - 1) / 100 + (d.year - 1) / 400
    + daysBeforeMonth d.year d.month + d.day

/-- Calendar validity as enforced by `datetime` (MINYEAR 1, MAXYEAR 9999). -/
def isValidPyDate (d : PyDate) : Bool :=
  1 ≤ d.year ∧ d.year ≤ 9999 ∧ 1 ≤ d.month ∧ d.month ≤ 12
    ∧ 1 ≤ d.day ∧ d.day ≤ daysInMonth d.year d.month

/-- Numeric value of an ASCII digit. -/
def digitVal (c : Char) : Nat := c.toNat - 48

/-- `datetime.fromisoformat` on the `YYYY-MM-DD` shape the HTTP frontend
sends (returns `none` where Python raises). -/
def parseISODate (s : String) : Option PyDate :=
  match s.data with
  | [y1, y2, y3, y4, s1, m1, m2, s2, d1, d2] =>
    if s1 = '-' ∧ s2 = '-'
        ∧ y1.isDigit ∧ y2.isDigit ∧ y3.isDigit ∧ y4.isDigit
        ∧ m1.isDigit ∧ m2.isDigit ∧ d1.isDigit ∧ d2.isDigit then
      let d : PyDate :=
        ⟨1000 * digitVal y1 + 100 * digitVal y2 + 10 * digitVal y3 + digitVal y4,
         10 * digitVal m1 + digitVal m2,
         10 * digitVal d1 + digitVal d2⟩
      if isValidPyDate d then some d else none
    else none
  | _ => none

/-- The date-validation block of `run_scraper` (src/app.py lines 201-215),
reached when both `from_date` and `to_date` are supplied.  `.error (code, msg)`
models `jsonify({"ok": False, "error": msg, ...}), code`; `.ok ()` means the
request passes date validation and proceeds to the core. -/
def validateRunDates (from_date_iso to_date_iso : String) : Except (Nat × String) Unit :=
  match parseISODate from_date_iso, parseISODate to_date_iso with
  | some d_from, some d_to =>
    let diff_days : Int := (dateOrdinal d_to : Int) - (dateOrdinal d_from : Int) + 1
    if diff_days ≤ 0 then
      .error (400, "ECF_TO_DATE must be same or after ECF_FROM_DATE.")
    else if diff_days > 30 then
      .error (400, "Date range too large: max allowed is 30 days.")
    else .ok ()
  | _, _ => .error (400, "Invalid date format. Use YYYY-MM-DD.")

/-! ## Credential masking (src/app.py `_mask_sensitive`, src/main.py `mask_secret`) -/

/-- `_mask_sensitive` from src/app.py (the `s[-keep_right:]` slice is taken on
the branch where `len(s) > keep_left + keep_right`, where it equals dropping
the first `len s - keep_right` characters). -/
def _mask_sensitive (s : String) (keep_left : Nat := 3) (keep_right : Nat := 3) : String :=
  if s = "" then "(empty)"
  else if s.length ≤ keep_left + keep_right then asterisks s.length
  else s.take keep_left ++ asterisks (s.length - keep_left - keep_right)
        ++ s.drop (s.length - keep_right)

/-- `mask_secret` from src/main.py. -/
def mask_secret (s : String) : String :=
  if s = "" then "(empty)"
  else if s.length ≤ 6 then asterisks s.length
  else s.take 3 ++ asterisks (s.length - 6) ++ s.drop (s.length - 3)

/-! ## Issue-date sanitizer (src/auth.py `_sanitize_fecha_emision`) -/

/-- `_sanitize_fecha_emision` from src/auth.py lines 540-545: on a falsy value
return `""`; otherwise strip whitespace, then drop the last 5 characters if
the stripped value is longer than 5, else return `""`. -/
def _sanitize_fecha_emision (value : String) : String :=
  if value = "" then ""
  else
    let v := String.mk (pyStrip value.data)
    if v.length > 5 then String.mk (v.data.take (v.data.length - 5)) else ""

/-! ## urllib.parse model

`_canonicalize_url` (src/auth.py lines 59-70) calls `urllib.parse.urlparse`,
`urllib.parse.urljoin('/', path)` and `urllib.parse.urlunparse`.  The CPython
implementations of these functions are translated below on `List Char`.
`.error ()` models the `ValueError` CPython raises on an invalid IPv6-style
netloc (the only exception these functions raise on string input), which
`_canonicalize_url` catches. -/

/-- Characters of `_WHATWG_C0_CONTROL_OR_SPACE`, lstripped from the URL. -/
def isC0OrSpace (c : Char) : Bool := c.toNat ≤ 32

/-- Characters of `_UNSAFE_URL_BYTES_TO_REMOVE`, removed from the URL. -/
def isTabCrLf (c : Char) : Bool := c = '\t' ∨ c = '\r' ∨ c = '\n'

/-- The sanitation `urlsplit` applies before parsing: lstrip the C0/space
prefix, then remove every tab/CR/LF. -/
def cleanUrl (l : List Char) : List Char :=
  (l.dropWhile isC0OrSpace).filter (fun c => ¬ isTabCrLf c)

/-- `url[0].isascii() and url[0].isalpha()`. -/
def isAsciiAlpha (c : Char) : Bool :=
  ('a' ≤ c ∧ c ≤ 'z') ∨ ('A' ≤ c ∧ c ≤ 'Z')

/-- Membership in `scheme_chars` (letters, digits, `+`, `-`, `.`). -/
def isSchemeChar (c : Char) : Bool :=
  isAsciiAlpha c ∨ c.isDigit ∨ c = '+' ∨ c = '-' ∨ c = '.'

/-- Split at the first colon: `some (before, after)`, or `none` if absent. -/
def findColon : List Char → Option (List Char × List Char)
  | [] => none
  | c :: rest =>
    if c = ':' then some ([], rest)
    else (findColon rest).map (fun pr => (c :: pr.1, pr.2))

/-- The scheme detection of `urlsplit`: `i = url.find(':')`; a scheme is
present when `i > 0`, the first character is an ASCII letter and every
character before the colon is a scheme character; the scheme is lowercased. -/
def splitScheme (l : List Char) : Option (List Char × List Char) :=
  match findColon l with
  | none => none
  | some (pre, post) =>
    match pre with
    | [] => none
    | c :: _ => if isAsciiAlpha c ∧ pre.all isSchemeChar
                then some (lowerL pre, post) else none

/-- `_splitnetloc` (applied after the leading `//` has been dropped) plus the
bracket checks of `urlsplit`: the netloc extends to the first `/`, `?` or
`#`; unbalanced square brackets raise `ValueError`, and a balanced bracket
pair triggers `_check_bracketed_host`, which raises unless the bracketed
text is a valid IPv6/IPvFuture literal.  IP-literal grammar is not modelled:
any bracketed netloc is treated as raising, so URLs with a (valid) bracketed
IPv6 host are outside this model; no claim concerns them. -/
def splitNetloc (l : List Char) : Except Unit (List Char × List Char) :=
  let netloc := l.takeWhile (fun c => ¬ (c = '/' ∨ c = '?' ∨ c = '#'))
  let rest := l.dropWhile (fun c => ¬ (c = '/' ∨ c = '?' ∨ c = '#'))
  if '[' ∈ netloc ∨ ']' ∈ netloc then .error ()
  else .ok (netloc, rest)

/-- Split at the first occurrence of `c`, if any. -/
def splitOnFirstOpt (c : Char) : List Char → Option (List Char × List Char)
  | [] => none
  | x :: rest =>
    if x = c then some ([], rest)
    else (splitOnFirstOpt c rest).map (fun pr => (x :: pr.1, pr.2))

/-- `url.split(c, 1)` guarded by `if c in url` (second component empty when
the separator is absent, as the unsplit Python string keeps `fragment = ''`). -/
def splitOnFirst (c : Char) (l : List Char) : List Char × List Char :=
  match splitOnFirstOpt c l with
  | none => (l, [])
  | some pr => pr

/-- Result of `urlsplit`. -/
structure SplitRes where
  scheme : List Char
  netloc : List Char
  path : List Char
  query : List Char
  fragment : List Char
deriving DecidableEq, Repr

/-- `urllib.parse.urlsplit` with `allow_fragments=True` (the `_checknetloc`
NFKC check, which concerns non-ASCII netlocs only, is not modelled). -/
def urlsplitE (l : List Char) : Except Unit SplitRes :=
  let u := cleanUrl l
  let sr := match splitScheme u with
            | some pr => pr
            | none => ([], u)
  match (if sr.2.take 2 = ['/', '/'] then splitNetloc (sr.2.drop 2)
         else .ok (([] : List Char), sr.2)) with
  | .error e => .error e
  | .ok (netloc, rest2) =>
    let fr := splitOnFirst '#' rest2
    let qr := splitOnFirst '?' fr.1
    .ok ⟨sr.1, netloc, qr.1, qr.2, fr.2⟩

/-- Split at the last slash: `some (before, after)` with the separator slash
removed and no slash in `after`; `none` when no slash occurs. -/
def lastSlashSplit : List Char → Option (List Char × List Char)
  | [] => none
  | c :: rest =>
    match lastSlashSplit rest with
    | some pr => some (c :: pr.1, pr.2)
    | none => if c = '/' then some ([], rest) else none

/-- `_splitparams`: if the path contains a slash, look for `;` only at or
after the last slash (no match leaves the path whole); otherwise split at
the first `;`.  Only invoked when `;` occurs in the path. -/
def pySplitParams (pq : List Char) : List Char × List Char :=
  match lastSlashSplit pq with
  | some pr =>
    match splitOnFirstOpt ';' pr.2 with
    | none => (pq, [])
    | some qr => (pr.1 ++ '/' :: qr.1, qr.2)
  | none =>
    match splitOnFirstOpt ';' pq with
    | none => (pq, [])
    | some qr => (qr.1, qr.2)

/-- `uses_params` from urllib.parse. -/
def usesParamsList : List String :=
  ["", "ftp", "hdl", "prospero", "http", "imap",
   "https", "shttp", "rtsp", "rtsps", "rtspu", "sip", "sips",
   "mms", "sftp", "tel"]

/-- Result of `urlparse`. -/
structure ParseRes where
  scheme : List Char
  netloc : List Char
  path : List Char
  params : List Char
  query : List Char
  fragment : List Char
deriving DecidableEq, Repr

/-- `urllib.parse.urlparse`: `urlsplit` plus the params split, applied when
the scheme uses params and the path contains a `;`. -/
def urlparseE (l : List Char) : Except Unit ParseRes :=
  match urlsplitE l with
  | .error e => .error e
  | .ok s =>
    if String.mk s.scheme ∈ usesParamsList ∧ ';' ∈ s.path then
      let pp := pySplitParams s.path
      .ok ⟨s.scheme, s.netloc, pp.1, pp.2, s.query, s.fragment⟩
    else .ok ⟨s.scheme, s.netloc, s.path, [], s.query, s.fragment⟩

/-- `uses_relative` from urllib.parse (membership of `''` is what the
root-based join depends on). -/
def usesRelativeList : List String :=
  ["", "ftp", "http", "gopher", "nntp", "imap", "wais", "file",
   "https", "shttp", "mms", "prospero", "rtsp", "rtsps", "rtspu",
   "sftp", "svn", "svn+ssh", "ws", "wss"]

/-- `uses_netloc` from urllib.parse. -/
def usesNetlocList : List String :=
  ["", "ftp", "http", "gopher", "nntp", "telnet", "imap", "wais",
   "file", "mms", "https", "shttp", "snews", "prospero", "rtsp",
   "rtsps", "rtspu", "rsync", "svn", "svn+ssh", "sftp", "nfs",
   "git", "git+ssh", "ws", "wss"]

/-- `urllib.parse.urlunsplit` (CPython 3.11: the `//` is emitted when the
netloc is non-empty, or when a non-empty scheme uses a netloc and the url
does not already start with `//`). -/
def urlunsplitL (scheme netloc url query fragment : List Char) : List Char :=
  let url1 :=
    if netloc ≠ [] ∨ (scheme ≠ [] ∧ String.mk scheme ∈ usesNetlocList
                        ∧ url.take 2 ≠ ['/', '/']) then
      '/' :: '/' :: netloc ++
        (if url ≠ [] ∧ url.take 1 ≠ ['/'] then '/' :: url else url)
    else url
  let url2 := if scheme ≠ [] then scheme ++ ':' :: url1 else url1
  let url3 := if query ≠ [] then url2 ++ '?' :: query else url2
  if fragment ≠ [] then url3 ++ '#' :: fragment else url3

/-- `urllib.parse.urlunparse`. -/
def urlunparseL (scheme netloc url params query fragment : List Char) : List Char :=
  urlunsplitL scheme netloc (if params ≠ [] then url ++ ';' :: params else url)
    query fragment

/-- `path.split('/')`. -/
def splitSlash : List Char → List (List Char)
  | [] => [[]]
  | c :: rest =>
    let r := splitSlash rest
    if c = '/' then [] :: r
    else
      match r with
      | [] => [[c]]
      | h :: t => (c :: h) :: t

/-- `'/'.join(pieces)`. -/
def joinSlash : List (List Char) → List Char
  | [] => []
  | [x] => x
  | x :: rest => x ++ '/' :: joinSlash rest

/-- The segment `..`. -/
def dotdotSeg : List Char := ['.', '.']

/-- The segment `.`. -/
def dotSeg : List Char := ['.']

/-- The dot-segment resolution loop of `urljoin`: `..` pops the last
resolved segment (no-op on empty, as the `IndexError` is passed), `.` is
skipped, anything else is appended. -/
def resolveSegs (segs : List (List Char)) : List (List Char) :=
  segs.foldl
    (fun acc seg =>
      if seg = dotdotSeg then acc.dropLast
      else if seg = dotSeg then acc
      else acc ++ [seg])
    []

/-- Resolution plus the post-processing of `urljoin`: when the final segment
is `.` or `..` an empty segment is appended (restoring a trailing slash). -/
def postResolve (segs : List (List Char)) : List (List Char) :=
  let r := resolveSegs segs
  if segs.getLastD [] = dotSeg ∨ segs.getLastD [] = dotdotSeg then r ++ [[]]
  else r

/-- `'/'.join(resolved_path) or '/'`. -/
def orSlash (l : List Char) : List Char := if l = [] then ['/'] else l

/-- Segment list for a relative path when joined against base `'/'`:
`base_parts` is `['', '']`, the slice `segments[1:-1]` is replaced by its
non-empty members, leaving the leading empty segment, the filtered interior
pieces and the final piece of the path. -/
def relSegments (p : List Char) : List (List Char) :=
  let ps := splitSlash p
  [] :: (ps.dropLast.filter (fun x => x ≠ [])) ++ [ps.getLastD []]

/-- `urllib.parse.urljoin('/', p)`, the only form `_canonicalize_url` uses.
The base `'/'` parses to `('', '', '/', '', '', '')`, so: an empty input
returns the base; a detected scheme (necessarily different from the base's
empty scheme) returns the input unchanged; a non-empty netloc short-circuits
to `urlunparse`; an empty path with empty params takes the base path `'/'`;
otherwise the path is resolved segment-wise against `base_parts = ['', '']`. -/
def urljoinRootE (p : List Char) : Except Unit (List Char) :=
  if p = [] then .ok ['/']
  else
    match urlparseE p with
    | .error e => .error e
    | .ok r =>
      if r.scheme ≠ [] then .ok p
      else if r.netloc ≠ [] then
        .ok (urlunparseL r.scheme r.netloc r.path r.params r.query r.fragment)
      else if r.path = [] ∧ r.params = [] then
        .ok (urlunparseL r.scheme [] ['/'] [] r.query r.fragment)
      else
        let segments := if r.path.take 1 = ['/'] then splitSlash r.path
                        else relSegments r.path
        .ok (urlunparseL [] [] (orSlash (joinSlash (postResolve segments)))
              r.params r.query r.fragment)

/-- `path.rstrip('/')`. -/
def rstripSlash (l : List Char) : List Char :=
  (l.reverse.dropWhile (fun c => c = '/')).reverse

/-- `_canonicalize_url` from src/auth.py lines 59-70: falsy input maps to
`""`; otherwise parse, normalize the path with `urljoin('/', path)` and
strip trailing slashes, and reassemble from the lowercased scheme, the
lowercased netloc, the normalized path and the query (params and fragment
are replaced by empty strings); if parsing or joining raises, return the
whitespace-stripped input. -/
def _canonicalize_url (url : String) : String :=
  if url = "" then ""
  else
    match urlparseE url.data with
    | .error _ => String.mk (pyStrip url.data)
    | .ok r =>
      match urljoinRootE r.path with
      | .error _ => String.mk (pyStrip url.data)
      | .ok j =>
        String.mk
          (urlunparseL (lowerL r.scheme) (lowerL r.netloc) (rstripSlash j)
            [] r.query [])

/-! ## Rows, tables and the per-page collection loop

`process_and_save_current_page` (src/auth.py lines 1091-1311) iterates over
candidate URLs, skipping those whose canonical form is already in the
`processed` set; for the others it opens the page, extracts a field
dictionary, sanitizes the issue date, attaches `h_source_url`, fills the
missing columns, appends the row to the incremental CSV and only then adds
the canonical URL to `processed`.  Browser access and the CSV append are
abstracted into an oracle (`openOk` — the whole open/navigate fallback chain
succeeded, `fields` — the dictionary `_extract_fields_from_page` returned,
`appendOk` — `_append_row_to_csv` did not raise); the control flow around
them is reproduced exactly. -/

/-- A Python dict of string fields, in insertion order. -/
abbrev PyRow : Type := List (String × String)

/-- Python dict assignment `d[k] = v`: replace in place when the key exists,
append otherwise. -/
def setKey (d : PyRow) (k v : String) : PyRow :=
  if (List.lookup k d).isSome then
    d.map (fun kv => if kv.1 = k then (k, v) else kv)
  else d ++ [(k, v)]

/-- The `for c in cols_order: if c not in data: data[c] = ''` loop. -/
def ensureCols (cols : List String) (d : PyRow) : PyRow :=
  cols.foldl (fun acc c => if (List.lookup c acc).isSome then acc
                           else acc ++ [(c, "")]) d

/-- `cols_order` from `collect_cfe_from_links` (src/auth.py lines 1474-1481). -/
def cols_order : List String :=
  ["Razon Social", "RUT", "Tipo CFE", "Serie", "Numero", "Fecha de Emision",
   "Moneda", "TC", "Monto No Gravado", "Monto Exportacion y Asimilados",
   "Monto Impuesto Percibido", "Monto  IVA en suspenso", "Neto Iva Tasa Basica",
   "Neto Iva Tasa Minima", "Neto Iva Otra Tasa", "Monto Total", "Monto Retenido",
   "Monto Credito Fiscal", "Monto No facturable", "Monto Total a Pagar",
   "Iva Tasa Basica", "Iva Tasa Minima", "Iva Otra Tasa", "h_source_url"]

/-- Oracle for the browser-and-filesystem effects of the per-URL body of
`process_and_save_current_page`. -/
structure PageOracle where
  openOk : String → Bool
  fields : String → PyRow
  appendOk : String → Bool

/-- The row constructed for one opened URL: extracted fields, issue-date
sanitation (including the misspelled `Fecha de Emisin` compatibility key),
the `h_source_url` provenance entry, and the missing-column fill. -/
def buildRow (o : PageOracle) (url : String) : PyRow :=
  let data := o.fields url
  let data :=
    if (List.lookup "Fecha de Emision" data).isSome then
      setKey data "Fecha de Emision"
        (_sanitize_fecha_emision ((List.lookup "Fecha de Emision" data).getD ""))
    else data
  let data :=
    if (List.lookup "Fecha de Emisin" data).isSome
        ∧ (List.lookup "Fecha de Emision" data).getD "" = "" then
      setKey data "Fecha de Emision"
        (_sanitize_fecha_emision ((List.lookup "Fecha de Emisin" data).getD ""))
    else data
  let data := setKey data "h_source_url" url
  ensureCols cols_order data

/-- The source URL recorded in a row. -/
def rowSrc (r : PyRow) : String := (List.lookup "h_source_url" r).getD ""

/-- The URL loop of `process_and_save_current_page` (src/auth.py lines
1135-1227): returns the final processed set and the rows appended to the
CSV, in order.  A URL is skipped when its canonical form is already
processed, when every open strategy fails, or when the CSV append raises;
the canonical URL joins `processed` exactly when a row is appended. -/
def processUrls (o : PageOracle) : List String → List String → List String × List PyRow
  | [], processed => (processed, [])
  | url :: rest, processed =>
    if _canonicalize_url url ∈ processed then processUrls o rest processed
    else if ¬ o.openOk url then processUrls o rest processed
    else if o.appendOk url then
      ((processUrls o rest (_canonicalize_url url :: processed)).1,
        buildRow o url :: (processUrls o rest (_canonicalize_url url :: processed)).2)
    else processUrls o rest processed

/-! ## pandas tables, seeding and the final report -/

/-- A pandas DataFrame of strings: a column list plus one association list
per row (a cell absent from a row reads as `""`, matching
`fillna("").astype(str)`). -/
structure PyTable where
  cols : List String
  rows : List PyRow

/-- Cell access with the `fillna("")` default. -/
def getCell (r : PyRow) (c : String) : String := (List.lookup c r).getD ""

/-- `df.drop(columns=[c])`. -/
def dropColumn (c : String) (t : PyTable) : PyTable :=
  ⟨t.cols.filter (fun x => x ≠ c), t.rows.map (fun r => r.filter (fun kv => kv.1 ≠ c))⟩

/-- `df[c] = df[c].apply(f)`. -/
def mapColumn (c : String) (f : String → String) (t : PyTable) : PyTable :=
  ⟨t.cols, t.rows.map (fun r => r.map (fun kv => if kv.1 = c then (kv.1, f kv.2) else kv))⟩

/-- The lambda applied to `Fecha de Emision` in the FINAL report write
(src/auth.py line 1567): `s[:-1] if len(s) > 5 else ""` — it removes one
trailing character, not five. -/
def finalTrimCell (s : String) : String :=
  if s.length > 5 then String.mk (s.data.take (s.data.length - 1)) else ""

/-- The lambda applied to `Fecha de Emision` in the INTERMEDIATE checkpoint
write (src/auth.py line 1303): `s[:-5] if len(s) > 5 else ""`. -/
def intermediateTrimCell (s : String) : String :=
  if s.length > 5 then String.mk (s.data.take (s.data.length - 5)) else ""

/-- The final-report materialization of `collect_cfe_from_links` (src/auth.py
lines 1559-1567): re-read the incremental CSV, drop `h_source_url` when
present, and re-apply the issue-date trim to the `Fecha de Emision` column. -/
def buildFinalReport (csv : PyTable) : PyTable :=
  let t := if "h_source_url" ∈ csv.cols then dropColumn "h_source_url" csv else csv
  if "Fecha de Emision" ∈ t.cols then mapColumn "Fecha de Emision" finalTrimCell t
  else t

/-- The Processed-Set seeding of `collect_cfe_from_links` (src/auth.py lines
1452-1472) from one pre-existing output table: when the table has an
`h_source_url` column, every value of that column is canonicalized and
added; a table without that column contributes nothing. -/
def seedProcessed (t : PyTable) : List String :=
  if "h_source_url" ∈ t.cols then
    t.rows.map (fun r => _canonicalize_url (getCell r "h_source_url"))
  else []

/-! ## The pagination loop of `collect_cfe_from_links`

Lines 1509-1548 of src/auth.py: page 1 is processed unconditionally before
the loop; the loop then stops when `max_pages` is reached, when the last
processed page yielded zero new rows, or when the Next control cannot be
clicked, and otherwise advances and processes the next page.  `newRows n`
abstracts the value `process_and_save_current_page` returns for the n-th
processed page and `nextOk n` whether `click_next_only` succeeds after it;
`fuel` is an upper bound on loop iterations used only to express the
recursion (exhausted fuel returns the pages processed so far). -/
def collectLoopFrom (newRows : Nat → Nat) (nextOk : Nat → Bool)
    (maxPages : Option Nat) : Nat → Nat → Nat → Nat
  | 0, page_count, _ => page_count
  | fuel + 1, page_count, new_on_page =>
    if (match maxPages with | some k => page_count ≥ k | none => false : Bool) then
      page_count
    else if new_on_page = 0 then page_count
    else if ¬ nextOk page_count then page_count
    else collectLoopFrom newRows nextOk maxPages fuel (page_count + 1)
          (newRows (page_count + 1))

/-- Number of pages processed by `collect_cfe_from_links`: the initial page
plus the pages the pagination loop advances to. -/
def pagesProcessed (newRows : Nat → Nat) (nextOk : Nat → Bool)
    (maxPages : Option Nat) (fuel : Nat) : Nat :=
  collectLoopFrom newRows nextOk maxPages fuel 1 (newRows 1)

/-! ## Field extraction (src/auth.py `_try_get_text`, `_extract_fields_from_page`)

A DOM element is modelled by the outcomes of the four accessors
`_try_get_text` may invoke; `none` models the accessor raising.  A page (or
frame) is a partial map from selector strings to elements; `none` covers
both "no match" and `query_selector` raising, which the source treats
identically (`el = None`). -/

structure DomElem where
  tagEval : Option String
  valueEval : Option String
  innerTextVal : Option String
  textContentVal : Option String

/-- `_try_get_text` (src/auth.py lines 521-537): `None` maps to `""`; a
form-input element yields its (already trimmed) JS value; other elements
yield their stripped inner text; if the primary accessor raises, fall back
to the (already trimmed) `textContent`, and to `""` if that raises too. -/
def _try_get_text (element : Option DomElem) : String :=
  match element with
  | none => ""
  | some el =>
    let tag := el.tagEval
    if tag = some "input" ∨ tag = some "textarea" then
      match el.valueEval with
      | some v => v
      | none =>
        match el.textContentVal with
        | some t => t
        | none => ""
    else
      match el.innerTextVal with
      | some t => String.mk (pyStrip t.data)
      | none =>
        match el.textContentVal with
        | some t => t
        | none => ""

/-- The selector table of `_extract_fields_from_page` (src/auth.py lines
549-573), verbatim. -/
def fieldMapping : List (String × List String) :=
  [("Razon Social", ["#span_vDENOMINACION", "[id*=\"span_vDENOMINACION\"]",
                     ".ReadonlyAttribute#span_vDENOMINACION"]),
   ("RUT", ["#span_CTLEFACARCHEMISORDOCNRO", "[id*=\"CTLEFACARCHEMISORDOCNRO\"]"]),
   ("Tipo CFE", ["#span_CTLEFACCMPTIPODESCORTA", "[id*=\"CTLEFACCMPTIPODESCORTA\"]"]),
   ("Serie", ["#span_CTLEFACCFESERIE1", "[id*=\"CTLEFACCFESERIE1\"]"]),
   ("Numero", ["#span_CTLEFACCFENUMERO1", "[id*=\"CTLEFACCFENUMERO1\"]"]),
   ("Fecha de Emision", ["#CTLEFACCFEFIRMAFECHAHORA_dp_container",
                         "[id*=\"CTLEFACCFEFIRMAFECHAHORA\"]", "[id*=\"FECHAHORA\"]"]),
   ("Moneda", ["#span_CTLEFACCFETIPOMONEDA", "[id*=\"CTLEFACCFETIPOMONEDA\"]"]),
   ("TC", ["#span_CTLEFACCFETIPOCAMBIO", "[id*=\"CTLEFACCFETIPOCAMBIO\"]",
           "[id*=\"TIPOCAMBIO\"]"]),
   ("Monto No Gravado", ["#span_CTLEFACCFETOTALMONTONOGRV", "[id*=\"TOTALMONTONOGRV\"]"]),
   ("Monto Exportacion y Asimilados", ["#span_CTLEFACCFETOTALMONTONOGRV",
                                       "[id*=\"TOTALMONTONOGRV\"]"]),
   ("Monto Impuesto Percibido", ["#span_CTLEFACCFETOTALMNTIMPPER",
                                 "[id*=\"TOTALMNTIMPPER\"]"]),
   ("Monto  IVA en suspenso", ["#span_CTLEFACCFETOTALMNTIVASUSP",
                               "[id*=\"TOTALMNTIVASUSP\"]"]),
   ("Neto Iva Tasa Basica", ["#span_CTLEFACCFETOTALMNTNETOIVATTB",
                             "[id*=\"TOTALMNTNETOIVATTB\"]"]),
   ("Neto Iva Tasa Minima", ["#span_CTLEFACCFETOTALMNTNETOIVATTM",
                             "[id*=\"TOTALMNTNETOIVATTM\"]"]),
   ("Neto Iva Otra Tasa", ["#span_CTLEFACCFETOTALMNTNETOIVATTO",
                           "[id*=\"TOTALMNTNETOIVATTO\"]"]),
   ("Monto Total", ["#span_CTLEFACCFETOTALMONTOTOTAL", "[id*=\"TOTALMONTOTOTAL\"]"]),
   ("Monto Retenido", ["#span_CTLEFACCFETOTALMONTORET", "[id*=\"CTLEFACCFETOTALMONTORET\"]",
                       ".TextView#TEXTBLOCK64"]),
   ("Monto Credito Fiscal", ["#span_CTLEFACCFETOTALMONTCREDFISC",
                             "[id*=\"TOTALMONTCREDFISC\"]"]),
   ("Monto No facturable", ["#span_CTLEFACCFEMONTONOFACT", "[id*=\"MONTONOFACT\"]"]),
   ("Monto Total a Pagar", ["#span_CTLEFACCFETOTALMNTAPAGAR", "[id*=\"TOTALMNTAPAGAR\"]"]),
   ("Iva Tasa Basica", ["#span_CTLEFACCFETOTALIVATASABASICA", "[id*=\"TOTALIVATASABASICA\"]"]),
   ("Iva Tasa Minima", ["#span_CTLEFACCFETOTALIVATASAMIN", "[id*=\"TOTALIVATASAMIN\"]"]),
   ("Iva Otra Tasa", ["#span_CTLEFACCFETOTALIVAOTRATASA", "[id*=\"TOTALIVAOTRATASA\"]"])]

/-- The inner selector loop for one column: try each selector in order,
keep the first non-empty text, leave `found_text` untouched when no element
matches and overwrite it (with the empty text) when one matches emptily. -/
def extractCol (page : String → Option DomElem) : List String → String → String
  | [], found_text => found_text
  | s :: rest, found_text =>
    match page s with
    | none => extractCol page rest found_text
    | some el =>
      let t := _try_get_text (some el)
      if t ≠ "" then t else extractCol page rest t

/-- `_extract_fields_from_page` (src/auth.py lines 548-588): one result entry
per column of `fieldMapping`, each computed by `extractCol` from `""`. -/
def _extract_fields_from_page (page : String → Option DomElem) : PyRow :=
  fieldMapping.map (fun cs => (cs.1, extractCol page cs.2 ""))

/-- Character-level side condition on a path component under which the
trailing-slash normalization is proved: no `#`, `?`, `;`, `[`, `]`. -/
def pathOkChars (p : List Char) : Prop :=
  '#' ∉ p ∧ '?' ∉ p ∧ ';' ∉ p ∧ '[' ∉ p ∧ ']' ∉ p

/-! # Theorems -/

/-! ## C6: issue-date sanitizer -/

/-- C6, counterexample.  The claim says `_sanitize_fecha_emision` maps every
value of length > 5 to the value minus its last 5 characters; the input
`"abc   "` has length 6 but sanitizes to `""` (the code strips whitespace
before measuring), not to `"a"`. -/
theorem sanitize_fecha_c6_counterexample :
    ("abc   " : String).length = 6
    ∧ _sanitize_fecha_emision "abc   " = ""
    ∧ String.mk (("abc   " : String).data.take (("abc   " : String).length - 5)) = "a" := by
  refine ⟨by decide, by decide, by decide⟩

/-- C6, amended: after stripping leading and trailing whitespace, a value
whose stripped form has length at most 5 sanitizes to the empty string, and
one whose stripped form is longer than 5 sanitizes to the stripped form with
its last 5 characters removed. -/
theorem sanitize_fecha_c6_amended (value : String) :
    ((pyStrip value.data).length ≤ 5 → _sanitize_fecha_emision value = "")
    ∧ (5 < (pyStrip value.data).length →
        _sanitize_fecha_emision value =
          String.mk ((pyStrip value.data).take ((pyStrip value.data).length - 5))) := by
  constructor
  · intro h
    by_cases hv : value = ""
    · simp [_sanitize_fecha_emision, hv]
    · have hlen : (String.mk (pyStrip value.data)).length = (pyStrip value.data).length := rfl
      simp only [_sanitize_fecha_emision, if_neg hv]
      rw [if_neg]
      rw [hlen]
      omega
  · intro h
    have hv : value ≠ "" := by
      intro e
      rw [e] at h
      simp [pyStrip] at h
    have hlen : (String.mk (pyStrip value.data)).length = (pyStrip value.data).length := rfl
    simp only [_sanitize_fecha_emision, if_neg hv]
    rw [if_pos]
    rw [hlen]
    omega

/-- C6, witness for the amended theorem. -/
theorem sanitize_fecha_c6_amended_witness :
    _sanitize_fecha_emision "2025-01-02 15:30" = "2025-01-02 "
    ∧ _sanitize_fecha_emision " ab " = "" :=
  ⟨((sanitize_fecha_c6_amended "2025-01-02 15:30").2 (by decide)).trans (by decide),
   (sanitize_fecha_c6_amended " ab ").1 (by decide)⟩

/-! ## C7: final-report issue-date trim (code bug) -/

/-- C7, evaluation at the failing input.  The final-report write drops
`h_source_url` as claimed, but its `Fecha de Emision` lambda
(src/auth.py line 1567) is `s[:-1] if len(s) > 5 else ""`: on the CSV cell
`"2025-01-02"` it produces `"2025-01-0"` (one character removed), while the
claim — and the sanitizer `_sanitize_fecha_emision` together with the
intermediate checkpoint lambda on line 1303 — remove five. -/
theorem final_report_c7_bug :
    (buildFinalReport
        ⟨cols_order, [[("Fecha de Emision", "2025-01-02"),
                       ("h_source_url", "http://h/doc1")]]⟩).cols.contains "h_source_url" = false
    ∧ (buildFinalReport
        ⟨cols_order, [[("Fecha de Emision", "2025-01-02"),
                       ("h_source_url", "http://h/doc1")]]⟩).rows.map
        (fun r => getCell r "Fecha de Emision") = ["2025-01-0"]
    ∧ intermediateTrimCell "2025-01-02" = "2025-"
    ∧ finalTrimCell "2025-01-02" ≠ intermediateTrimCell "2025-01-02" := by
  refine ⟨by decide, by decide, by decide, by decide⟩

/-! ## C9: credential masking -/

/-- C9: both masking functions (`mask_secret` of src/main.py and
`_mask_sensitive` of src/app.py at its default 3/3 parameters) map every
length-4 secret to four asterisks and every length-10 secret to its first 3
characters, four asterisks, and its last 3 characters. -/
theorem masking_c9 (s : String) :
    (s.length = 4 → mask_secret s = "****" ∧ _mask_sensitive s = "****")
    ∧ (s.length = 10 →
        mask_secret s = s.take 3 ++ "****" ++ s.drop 7
        ∧ _mask_sensitive s = s.take 3 ++ "****" ++ s.drop 7) := by
  have hast : asterisks 4 = "****" := by decide
  constructor
  · intro h
    have hv : s ≠ "" := by
      intro e
      rw [e] at h
      exact absurd h (by decide)
    constructor
    · simp only [mask_secret, if_neg hv, h]
      rw [if_pos (by omega)]
      exact hast
    · simp only [_mask_sensitive, if_neg hv, h]
      rw [if_pos (by omega)]
      exact hast
  · intro h
    have hv : s ≠ "" := by
      intro e
      rw [e] at h
      exact absurd h (by decide)
    constructor
    · simp only [mask_secret, if_neg hv, h]
      rw [if_neg (by omega)]
      norm_num [hast]
    · simp only [_mask_sensitive, if_neg hv, h]
      rw [if_neg (by omega)]
      norm_num [hast]

/-- C9, witness. -/
theorem masking_c9_witness :
    mask_secret "abcd" = "****" ∧ _mask_sensitive "abcd" = "****"
    ∧ mask_secret "abcdefghij" = "abcdefghij".take 3 ++ "****" ++ "abcdefghij".drop 7 :=
  ⟨((masking_c9 "abcd").1 (by decide)).1, ((masking_c9 "abcd").1 (by decide)).2,
   ((masking_c9 "abcdefghij").2 (by decide)).1⟩

/-! ## C4: HTTP date-range validation, concrete boundary behavior -/

/-- C4: with both dates supplied, the `/run` boundary rejects
`2025-07-01 .. 2025-07-31` with the 400 "too large" error (31 inclusive
days), accepts `2025-07-01 .. 2025-07-01`, and rejects every parseable pair
with `to < from` with the 400 ordering error. -/
theorem run_dates_c4 :
    validateRunDates "2025-07-01" "2025-07-31"
      = .error (400, "Date range too large: max allowed is 30 days.")
    ∧ validateRunDates "2025-07-01" "2025-07-01" = .ok ()
    ∧ ∀ (fs ts : String) (df dt : PyDate),
        parseISODate fs = some df → parseISODate ts = some dt →
        dateOrdinal dt < dateOrdinal df →
        validateRunDates fs ts
          = .error (400, "ECF_TO_DATE must be same or after ECF_FROM_DATE.") := by
  refine ⟨by decide, by decide, ?_⟩
  intro fs ts df dt hf ht hlt
  unfold validateRunDates
  rw [hf, ht]
  have h : (dateOrdinal dt : Int) - (dateOrdinal df : Int) + 1 ≤ 0 := by omega
  simp [h]

/-- C4, witness for the universally quantified rejection of `to < from`. -/
theorem run_dates_c4_witness :
    validateRunDates "2025-07-02" "2025-07-01"
      = .error (400, "ECF_TO_DATE must be same or after ECF_FROM_DATE.") :=
  run_dates_c4.2.2 "2025-07-02" "2025-07-01" ⟨2025, 7, 2⟩ ⟨2025, 7, 1⟩
    (by decide) (by decide) (by decide)

/-! ## C5: acceptance region of the date validation -/

/-- C5, counterexample.  `2025-07-01 .. 2025-07-31` satisfies the claim's
precondition (`to ≥ from` and `to - from ≤ 30` days), yet the boundary
rejects it: the code rejects whenever the inclusive day count
`(to - from).days + 1` exceeds 30, so a 30-day difference is refused. -/
theorem run_dates_c5_counterexample :
    parseISODate "2025-07-01" = some ⟨2025, 7, 1⟩
    ∧ parseISODate "2025-07-31" = some ⟨2025, 7, 31⟩
    ∧ dateOrdinal ⟨2025, 7, 1⟩ ≤ dateOrdinal ⟨2025, 7, 31⟩
    ∧ dateOrdinal ⟨2025, 7, 31⟩ - dateOrdinal ⟨2025, 7, 1⟩ ≤ 30
    ∧ validateRunDates "2025-07-01" "2025-07-31" ≠ .ok () := by
  refine ⟨by decide, by decide, by decide, by decide, by decide⟩

/-- C5, amended: the boundary accepts exactly the pairs with
`to ≥ from` and `to - from ≤ 29` days (inclusive span of at most 30 days). -/
theorem run_dates_c5_amended (fs ts : String) (df dt : PyDate)
    (hf : parseISODate fs = some df) (ht : parseISODate ts = some dt)
    (hord : dateOrdinal df ≤ dateOrdinal dt)
    (hspan : dateOrdinal dt - dateOrdinal df ≤ 29) :
    validateRunDates fs ts = .ok () := by
  unfold validateRunDates
  rw [hf, ht]
  have h1 : ¬ ((dateOrdinal dt : Int) - (dateOrdinal df : Int) + 1 ≤ 0) := by omega
  have h2 : ¬ ((dateOrdinal dt : Int) - (dateOrdinal df : Int) + 1 > 30) := by omega
  simp [h1, h2]

/-- C5, witness for the amended theorem. -/
theorem run_dates_c5_amended_witness :
    validateRunDates "2025-07-01" "2025-07-30" = .ok () :=
  run_dates_c5_amended "2025-07-01" "2025-07-30" ⟨2025, 7, 1⟩ ⟨2025, 7, 30⟩
    (by decide) (by decide) (by decide) (by decide)

/-! ## C3: pagination-loop termination and page cap -/

/-- Helper: once some page `N ≥ page_count` yields zero new rows, the loop
never counts past `N`, whatever the fuel. -/
theorem collectLoopFrom_le_of_zero (newRows : Nat → Nat) (nextOk : Nat → Bool)
    (maxPages : Option Nat) (N : Nat) (hN : newRows N = 0) :
    ∀ (fuel pc : Nat), pc ≤ N →
      collectLoopFrom newRows nextOk maxPages fuel pc (newRows pc) ≤ N := by
  intro fuel
  induction fuel with
  | zero => intro pc h; simpa [collectLoopFrom] using h
  | succ f ih =>
    intro pc h
    simp only [collectLoopFrom]
    split
    · exact h
    · split
      · exact h
      · split
        · exact h
        · rename_i hznew hnext
          have hlt : pc < N := by
            rcases Nat.lt_or_ge pc N with hc | hc
            · exact hc
            · exfalso
              have : pc = N := Nat.le_antisymm h hc
              rw [this, hN] at hznew
              exact hznew rfl
          exact ih (pc + 1) hlt

/-- Helper: with enough fuel the loop result no longer depends on the fuel
bound, i.e. the loop terminates within `N - pc` iterations. -/
theorem collectLoopFrom_stable (newRows : Nat → Nat) (nextOk : Nat → Bool)
    (maxPages : Option Nat) (N : Nat) (hN : newRows N = 0) :
    ∀ (f1 f2 pc : Nat), pc ≤ N → N - pc < f1 → N - pc < f2 →
      collectLoopFrom newRows nextOk maxPages f1 pc (newRows pc)
        = collectLoopFrom newRows nextOk maxPages f2 pc (newRows pc) := by
  intro f1
  induction f1 with
  | zero => intro f2 pc _ hf1 _; omega
  | succ f ih =>
    intro f2 pc hpc hf1 hf2
    match f2, hf2 with
    | g + 1, _ =>
      simp only [collectLoopFrom]
      split
      · rfl
      · split
        · rfl
        · split
          · rfl
          · rename_i hznew hnext
            have hlt : pc < N := by
              rcases Nat.lt_or_ge pc N with hc | hc
              · exact hc
              · exfalso
                have : pc = N := Nat.le_antisymm hpc hc
                rw [this, hN] at hznew
                exact hznew rfl
            exact ih g (pc + 1) hlt (by omega) (by omega)

/-- Helper: with `max_pages = some k` the page counter never exceeds `k`
once it starts at or below `k`. -/
theorem collectLoopFrom_le_max (newRows : Nat → Nat) (nextOk : Nat → Bool) (k : Nat) :
    ∀ (fuel pc new : Nat), pc ≤ k →
      collectLoopFrom newRows nextOk (some k) fuel pc new ≤ k := by
  intro fuel
  induction fuel with
  | zero => intro pc new h; simpa [collectLoopFrom] using h
  | succ f ih =>
    intro pc new h
    simp only [collectLoopFrom]
    split
    · exact h
    · split
      · exact h
      · split
        · exact h
        · rename_i hmax _ _
          have : ¬ (pc ≥ k) := by
            intro hge
            exact hmax (by simp [hge])
          exact ih (pc + 1) (newRows (pc + 1)) (by omega)

/-- C3, counterexample.  With `max_pages = 0` (reachable via
`--max-pages 0`), the initial page is processed before the loop's cap check,
so one page is processed although the claim demands at most `k = 0`. -/
theorem collect_loop_c3_counterexample :
    pagesProcessed (fun _ => 1) (fun _ => true) (some 0) 5 = 1
    ∧ ¬ (pagesProcessed (fun _ => 1) (fun _ => true) (some 0) 5 ≤ 0) := by
  refine ⟨by decide, by decide⟩

/-- C3, amended: (1) when page `N ≥ 1` yields zero new records the loop
stops at or before page `N` whatever fuel bound is used to express it;
(2) the result is independent of any fuel bound of at least `N`, i.e. the
loop terminates; (3) with `max_pages = k ≥ 1` at most `k` pages are
processed — the claim's `k = 0` case fails because the initial page is
processed before the cap is consulted. -/
theorem collect_loop_c3_amended :
    (∀ (newRows : Nat → Nat) (nextOk : Nat → Bool) (maxPages : Option Nat) (N fuel : Nat),
       1 ≤ N → newRows N = 0 →
       pagesProcessed newRows nextOk maxPages fuel ≤ N)
    ∧ (∀ (newRows : Nat → Nat) (nextOk : Nat → Bool) (maxPages : Option Nat) (N f1 f2 : Nat),
       1 ≤ N → newRows N = 0 → N ≤ f1 → N ≤ f2 →
       pagesProcessed newRows nextOk maxPages f1 = pagesProcessed newRows nextOk maxPages f2)
    ∧ (∀ (newRows : Nat → Nat) (nextOk : Nat → Bool) (k fuel : Nat),
       1 ≤ k → pagesProcessed newRows nextOk (some k) fuel ≤ k) := by
  refine ⟨?_, ?_, ?_⟩
  · intro newRows nextOk maxPages N fuel h1 hz
    exact collectLoopFrom_le_of_zero newRows nextOk maxPages N hz fuel 1 h1
  · intro newRows nextOk maxPages N f1 f2 h1 hz hf1 hf2
    exact collectLoopFrom_stable newRows nextOk maxPages N hz f1 f2 1 h1
      (by omega) (by omega)
  · intro newRows nextOk k fuel h1
    exact collectLoopFrom_le_max newRows nextOk k fuel 1 (newRows 1) h1

/-- C3, witness for the amended theorem. -/
theorem collect_loop_c3_amended_witness :
    pagesProcessed (fun n => if n < 2 then 1 else 0) (fun _ => true) none 10 ≤ 2
    ∧ pagesProcessed (fun _ => 1) (fun _ => true) (some 3) 10 ≤ 3 :=
  ⟨collect_loop_c3_amended.1 (fun n => if n < 2 then 1 else 0) (fun _ => true) none 2 10
      (by decide) (by decide),
   collect_loop_c3_amended.2.2 (fun _ => 1) (fun _ => true) 3 10 (by decide)⟩

/-! ## Association-list and collection-loop lemmas -/

/-- Helper: a lookup that succeeds on `d` is unchanged by appending. -/
theorem lookup_append_left_of_isSome {k : String} {d e : List (String × String)}
    (h : (List.lookup k d).isSome) : List.lookup k (d ++ e) = List.lookup k d := by
  induction d with
  | nil => simp [List.lookup] at h
  | cons hd tl ih =>
    obtain ⟨a, b⟩ := hd
    simp only [List.cons_append, List.lookup]
    cases hab : (k == a) with
    | true => rfl
    | false =>
      simp only [List.lookup, hab] at h
      exact ih h

/-- Helper: a lookup that fails on `d` passes through to the appended list. -/
theorem lookup_append_right_of_none {k : String} {d e : List (String × String)}
    (h : List.lookup k d = none) : List.lookup k (d ++ e) = List.lookup k e := by
  induction d with
  | nil => rfl
  | cons hd tl ih =>
    obtain ⟨a, b⟩ := hd
    simp only [List.lookup, List.cons_append]
    cases hab : (k == a) with
    | true =>
      simp only [List.lookup, hab] at h
      exact Option.noConfusion h
    | false =>
      simp only [List.lookup, hab] at h
      exact ih h

/-- Helper: replacing the value at key `k` in place makes lookup return it. -/
theorem lookup_map_replace {k v : String} :
    ∀ (d : List (String × String)), (List.lookup k d).isSome →
      List.lookup k (d.map (fun kv => if kv.1 = k then (k, v) else kv)) = some v
  | [], h => by simp [List.lookup] at h
  | (a, b) :: tl, h => by
    by_cases hab : a = k
    · subst hab
      rw [List.map_cons, if_pos rfl]
      simp [List.lookup]
    · have hk : (k == a) = false := beq_eq_false_iff_ne.mpr (fun e => hab e.symm)
      rw [List.map_cons, if_neg hab]
      simp only [List.lookup, hk]
      simp only [List.lookup, hk] at h
      exact lookup_map_replace tl h

/-- Helper: after `setKey d k v`, looking up `k` yields `v`. -/
theorem lookup_setKey_self (d : List (String × String)) (k v : String) :
    List.lookup k (setKey d k v) = some v := by
  unfold setKey
  split
  · rename_i hsome
    exact lookup_map_replace d hsome
  · rename_i hnone
    have h0 : List.lookup k d = none := by
      cases hc : List.lookup k d with
      | none => rfl
      | some x => rw [hc] at hnone; simp at hnone
    rw [lookup_append_right_of_none h0]
    simp [List.lookup]

/-- Helper: the missing-column fill only appends absent keys, so a lookup
that already succeeds is unchanged. -/
theorem lookup_ensureCols_of_isSome {k : String} :
    ∀ (cols : List String) (d : List (String × String)),
      (List.lookup k d).isSome → List.lookup k (ensureCols cols d) = List.lookup k d
  | [], d, _ => rfl
  | c :: cs, d, h => by
    simp only [ensureCols, List.foldl_cons]
    by_cases hc : (List.lookup c d).isSome
    · rw [if_pos hc]
      exact lookup_ensureCols_of_isSome cs d h
    · rw [if_neg hc]
      have hkeep : List.lookup k (d ++ [(c, "")]) = List.lookup k d :=
        lookup_append_left_of_isSome h
      have h2 : (List.lookup k (d ++ [(c, "")])).isSome := by rw [hkeep]; exact h
      calc List.lookup k (ensureCols cs (d ++ [(c, "")]))
          = List.lookup k (d ++ [(c, "")]) := lookup_ensureCols_of_isSome cs _ h2
        _ = List.lookup k d := hkeep

/-- Helper: setting a key and then filling missing columns leaves the set
value in place. -/
theorem lookup_ensure_setKey (cols : List String) (d : List (String × String))
    (k v : String) : List.lookup k (ensureCols cols (setKey d k v)) = some v := by
  rw [lookup_ensureCols_of_isSome cols _ (by rw [lookup_setKey_self]; rfl),
    lookup_setKey_self]

/-- Helper: every row the loop builds records its source URL under
`h_source_url`. -/
theorem rowSrc_buildRow (o : PageOracle) (u : String) : rowSrc (buildRow o u) = u := by
  simp only [rowSrc, buildRow]
  rw [lookup_ensure_setKey]
  rfl

set_option maxHeartbeats 1000000 in
/-- Helper: every row appended by the URL loop has a canonical source URL
that was not in the processed set the loop started from. -/
theorem processUrls_avoid (o : PageOracle) :
    ∀ (urls : List String) (processed : List String) (r : PyRow),
      r ∈ (processUrls o urls processed).2 →
      _canonicalize_url (rowSrc r) ∉ processed := by
  intro urls
  induction urls with
  | nil => intro processed r hr; simp [processUrls] at hr
  | cons u rest ih =>
    intro processed r hr
    rw [processUrls] at hr
    by_cases h1 : _canonicalize_url u ∈ processed
    · rw [if_pos h1] at hr
      exact ih processed r hr
    · rw [if_neg h1] at hr
      by_cases h2 : o.openOk u = true
      · rw [if_neg (fun hn => hn h2)] at hr
        by_cases h3 : o.appendOk u = true
        · rw [if_pos h3] at hr
          rcases List.mem_cons.mp hr with he | ht
          · rw [he, rowSrc_buildRow]
            exact h1
          · have := ih (_canonicalize_url u :: processed) r ht
            intro hp
            exact this (List.mem_cons_of_mem _ hp)
        · rw [if_neg h3] at hr
          exact ih processed r hr
      · rw [if_pos (by simpa using h2)] at hr
        exact ih processed r hr

/-- Helper: the canonical source URLs of the rows appended in one run of the
URL loop are pairwise distinct. -/
theorem processUrls_canon_nodup (o : PageOracle) :
    ∀ (urls : List String) (processed : List String),
      ((processUrls o urls processed).2.map
        (fun r => _canonicalize_url (rowSrc r))).Nodup := by
  intro urls
  induction urls with
  | nil => intro processed; simp [processUrls]
  | cons u rest ih =>
    intro processed
    rw [processUrls]
    by_cases h1 : _canonicalize_url u ∈ processed
    · rw [if_pos h1]; exact ih processed
    · rw [if_neg h1]
      by_cases h2 : o.openOk u = true
      · rw [if_neg (fun hn => hn h2)]
        by_cases h3 : o.appendOk u = true
        · rw [if_pos h3]
          simp only [List.map_cons, List.nodup_cons]
          constructor
          · rw [rowSrc_buildRow]
            intro hin
            rcases List.mem_map.mp hin with ⟨r, hr, he⟩
            have := processUrls_avoid o rest (_canonicalize_url u :: processed) r hr
            exact this (by rw [he]; exact List.mem_cons_self _ _)
          · exact ih (_canonicalize_url u :: processed)
        · rw [if_neg h3]; exact ih processed
      · rw [if_pos (by simpa using h2)]; exact ih processed

/-- Helper: a list whose image under `f` has no duplicates contains at most
one element of each `f`-fiber. -/
theorem filter_length_le_one_of_nodup_map {α β : Type} [DecidableEq β] (f : α → β) :
    ∀ (L : List α), ((L.map f).Nodup) → ∀ (c : β),
      (L.filter (fun r => f r = c)).length ≤ 1 := by
  intro L
  induction L with
  | nil => intro _ c; simp
  | cons a tl ih =>
    intro hnd c
    simp only [List.map_cons, List.nodup_cons] at hnd
    simp only [List.filter_cons]
    by_cases hac : f a = c
    · have hnone : tl.filter (fun r => decide (f r = c)) = [] := by
        rw [List.filter_eq_nil_iff]
        intro b hb hpb
        apply hnd.1
        have hbc : f b = c := of_decide_eq_true hpb
        rw [hac, ← hbc]
        exact List.mem_map_of_mem f hb
      rw [if_pos (decide_eq_true hac), hnone]
      simp
    · rw [if_neg (by simp [hac])]
      exact ih hnd.2 c

/-! ## C2: idempotent re-runs and Processed-Set seeding -/

/-- C2, counterexample.  The Final Report is written with `h_source_url`
dropped, so seeding the Processed Set from a pre-existing Final Report finds
no provenance column and seeds nothing; re-running over the same single
search result appends one row whose canonical source URL already appeared in
the run that produced the report — not zero as claimed. -/
theorem seeding_c2_counterexample :
    seedProcessed (buildFinalReport
      ⟨cols_order, [[("Razon Social", "ACME"), ("h_source_url", "http://h/doc1")]]⟩) = []
    ∧ ((processUrls ⟨fun _ => true, fun _ => [], fun _ => true⟩ ["http://h/doc1"]
          (seedProcessed (buildFinalReport
            ⟨cols_order, [[("Razon Social", "ACME"),
                           ("h_source_url", "http://h/doc1")]]⟩))).2.filter
        (fun r => _canonicalize_url (rowSrc r)
          ∈ [[("Razon Social", "ACME"), ("h_source_url", "http://h/doc1")]].map
              (fun pr => _canonicalize_url (getCell pr "h_source_url")))).length = 1 := by
  refine ⟨by decide, by decide⟩

/-- C2, amended: the at-most-once seeding guarantee does hold for a
pre-existing table that still carries the `h_source_url` column — in the
code that is the Incremental CSV (`result.csv`), not the Final Report: with
the Processed Set seeded from such a table, the URL loop appends zero rows
whose canonical source URL already appears in the table. -/
theorem seeding_c2_amended (t : PyTable) (o : PageOracle) (urls : List String)
    (hcol : "h_source_url" ∈ t.cols) :
    ((processUrls o urls (seedProcessed t)).2.filter
      (fun r => _canonicalize_url (rowSrc r)
        ∈ t.rows.map (fun pr => _canonicalize_url (getCell pr "h_source_url")))).length
      = 0 := by
  rw [List.length_eq_zero, List.filter_eq_nil_iff]
  intro r hr hpb
  have hseed : seedProcessed t
      = t.rows.map (fun pr => _canonicalize_url (getCell pr "h_source_url")) := by
    unfold seedProcessed
    rw [if_pos hcol]
  have havoid := processUrls_avoid o urls (seedProcessed t) r hr
  rw [hseed] at havoid
  exact havoid (of_decide_eq_true hpb)

/-- C2, witness for the amended theorem. -/
theorem seeding_c2_amended_witness :
    ((processUrls ⟨fun _ => true, fun _ => [], fun _ => true⟩ ["http://h/doc1"]
        (seedProcessed ⟨cols_order,
          [[("Razon Social", "ACME"), ("h_source_url", "http://h/doc1")]]⟩)).2.filter
      (fun r => _canonicalize_url (rowSrc r)
        ∈ ((⟨cols_order, [[("Razon Social", "ACME"),
              ("h_source_url", "http://h/doc1")]]⟩ : PyTable)).rows.map
            (fun pr => _canonicalize_url (getCell pr "h_source_url")))).length = 0 :=
  seeding_c2_amended
    ⟨cols_order, [[("Razon Social", "ACME"), ("h_source_url", "http://h/doc1")]]⟩
    ⟨fun _ => true, fun _ => [], fun _ => true⟩ ["http://h/doc1"] (by decide)

/-! ## C8: per-column extraction degradation and independence -/

/-- Helper: looking a column up in the extraction result finds the value
computed from that column's own selector list (column names are distinct). -/
theorem lookup_extract_map (f : List String → String) :
    ∀ (l : List (String × List String)) (col : String) (sels : List String),
      (l.map Prod.fst).Nodup → (col, sels) ∈ l →
      List.lookup col (l.map (fun cs => (cs.1, f cs.2))) = some (f sels) := by
  intro l
  induction l with
  | nil => intro col sels _ h; cases h
  | cons hd tl ih =>
    intro col sels hnd hmem
    obtain ⟨a, b⟩ := hd
    simp only [List.map_cons, List.nodup_cons] at hnd
    rcases List.mem_cons.mp hmem with he | ht
    · rw [← he]
      simp [List.lookup]
    · have hne : (col == a) = false := by
        rw [beq_eq_false_iff_ne]
        intro e
        apply hnd.1
        rw [e] at ht
        exact List.mem_map_of_mem Prod.fst ht
      simp only [List.map_cons, List.lookup, hne]
      exact ih col sels hnd.2 ht

/-- Helper: when no selector of the list matches, the column loop returns
its accumulator unchanged. -/
theorem extractCol_all_none (page : String → Option DomElem) :
    ∀ (sels : List String) (acc : String), (∀ s ∈ sels, page s = none) →
      extractCol page sels acc = acc := by
  intro sels
  induction sels with
  | nil => intro acc _; rfl
  | cons s rest ih =>
    intro acc h
    have hs : page s = none := h s (List.mem_cons_self s rest)
    simp only [extractCol, hs]
    exact ih acc (fun x hx => h x (List.mem_cons_of_mem s hx))

/-- Helper: the column loop only consults the page on its own selectors. -/
theorem extractCol_congr (p1 p2 : String → Option DomElem) :
    ∀ (sels : List String) (acc : String), (∀ s ∈ sels, p1 s = p2 s) →
      extractCol p1 sels acc = extractCol p2 sels acc := by
  intro sels
  induction sels with
  | nil => intro acc _; rfl
  | cons s rest ih =>
    intro acc h
    have hs : p1 s = p2 s := h s (List.mem_cons_self s rest)
    have hrest : ∀ x ∈ rest, p1 x = p2 x := fun x hx => h x (List.mem_cons_of_mem s hx)
    simp only [extractCol, hs]
    cases p2 s with
    | none => exact ih acc hrest
    | some el =>
      dsimp only
      by_cases ht : _try_get_text (some el) ≠ ""
      · rw [if_pos ht, if_pos ht]
      · rw [if_neg ht, if_neg ht]
        exact ih _ hrest

/-- C8: (degradation) for every page and every column of the selector table,
if no selector of that column matches an element, the extraction returns
that column as the empty string — the function itself is total, so no
exception escapes; (independence) the value extracted for a column depends
only on the page's answers for that column's own selectors, so one column's
failure cannot perturb another column's value. -/
theorem extract_fields_c8 :
    (∀ (page : String → Option DomElem) (col : String) (sels : List String),
       (col, sels) ∈ fieldMapping → (∀ s ∈ sels, page s = none) →
       List.lookup col (_extract_fields_from_page page) = some "")
    ∧ (∀ (p1 p2 : String → Option DomElem) (col : String) (sels : List String),
       (col, sels) ∈ fieldMapping → (∀ s ∈ sels, p1 s = p2 s) →
       List.lookup col (_extract_fields_from_page p1)
         = List.lookup col (_extract_fields_from_page p2)) := by
  have hnd : (fieldMapping.map Prod.fst).Nodup := by decide
  constructor
  · intro page col sels hmem hnone
    unfold _extract_fields_from_page
    rw [lookup_extract_map (fun ss => extractCol page ss "") fieldMapping col sels hnd hmem]
    rw [extractCol_all_none page sels "" hnone]
  · intro p1 p2 col sels hmem hagree
    unfold _extract_fields_from_page
    rw [lookup_extract_map (fun ss => extractCol p1 ss "") fieldMapping col sels hnd hmem,
      lookup_extract_map (fun ss => extractCol p2 ss "") fieldMapping col sels hnd hmem,
      extractCol_congr p1 p2 sels "" hagree]

/-- C8, witness: on a page where no selector matches anything, the `RUT`
column extracts to the empty string. -/
theorem extract_fields_c8_witness :
    List.lookup "RUT" (_extract_fields_from_page (fun _ => none)) = some "" :=
  extract_fields_c8.1 (fun _ => none) "RUT"
    ["#span_CTLEFACARCHEMISORDOCNRO", "[id*=\"CTLEFACARCHEMISORDOCNRO\"]"]
    (by decide) (fun s _ => rfl)

/-! ## C1/C10: canonical-URL lemmas

The heart of C1 is that appending a trailing slash to a path component does
not change the canonical path `rstrip('/') ∘ urljoin('/', ·)`, provided the
path contains none of `# ? ; [ ]`.  The lemmas below build that up from the
segment machinery of `urljoin`. -/

/-- Helper: stripping trailing slashes absorbs an appended slash. -/
theorem rstripSlash_append_slash (l : List Char) :
    rstripSlash (l ++ ['/']) = rstripSlash l := by
  unfold rstripSlash
  rw [List.reverse_append]
  rfl

/-- Helper: `split('/')` never returns an empty piece list. -/
theorem splitSlash_ne_nil : ∀ (l : List Char), splitSlash l ≠ [] := by
  intro l
  cases l with
  | nil => simp [splitSlash]
  | cons c rest =>
    simp only [splitSlash]
    by_cases hc : c = '/'
    · rw [if_pos hc]; simp
    · rw [if_neg hc]
      cases splitSlash rest with
      | nil => simp
      | cons h t => simp

/-- Helper: `split('/')` of a string with a slash appended gains one final
empty piece. -/
theorem splitSlash_append_slash : ∀ (l : List Char),
    splitSlash (l ++ ['/']) = splitSlash l ++ [[]]
  | [] => rfl
  | c :: rest => by
    have ih := splitSlash_append_slash rest
    by_cases hc : c = '/'
    · subst hc
      simp [splitSlash, ih]
    · cases hs : splitSlash rest with
      | nil => exact absurd hs (splitSlash_ne_nil rest)
      | cons h t =>
        calc splitSlash ((c :: rest) ++ ['/'])
            = splitSlash (c :: (rest ++ ['/'])) := by rw [List.cons_append]
          _ = (c :: h) :: (t ++ [[]]) := by
                simp only [splitSlash, if_neg hc, ih, hs, List.cons_append]
          _ = splitSlash (c :: rest) ++ [[]] := by
                simp only [splitSlash, if_neg hc, hs, List.cons_append]

/-- Helper: joining with one extra empty piece appends one slash. -/
theorem joinSlash_append_nil : ∀ (A : List (List Char)), A ≠ [] →
    joinSlash (A ++ [[]]) = joinSlash A ++ ['/']
  | [], h => absurd rfl h
  | [x], _ => rfl
  | x :: y :: t, _ => by
    calc joinSlash ((x :: y :: t) ++ [[]])
        = x ++ '/' :: joinSlash ((y :: t) ++ [[]]) := by simp [joinSlash]
      _ = x ++ '/' :: (joinSlash (y :: t) ++ ['/']) := by
            rw [joinSlash_append_nil (y :: t) (by simp)]
      _ = joinSlash (x :: y :: t) ++ ['/'] := by simp [joinSlash]

/-- Helper: last element of a list with one element appended. -/
theorem getLastD_append_single {α : Type} (a : α) :
    ∀ (l : List α) (d : α), (l ++ [a]).getLastD d = a
  | [], _ => rfl
  | x :: rest, d => by
    rw [List.cons_append, List.getLastD_cons]
    exact getLastD_append_single a rest x

/-- Helper: a non-empty list is its front plus its `getLastD`. -/
theorem dropLast_append_getLastD {α : Type} :
    ∀ (l : List α), l ≠ [] → ∀ (d : α), l.dropLast ++ [l.getLastD d] = l
  | [], h, _ => absurd rfl h
  | [_], _, _ => rfl
  | x :: y :: t, _, d => by
    rw [List.dropLast_cons₂, List.getLastD_cons, List.cons_append]
    rw [dropLast_append_getLastD (y :: t) (by simp) x]

/-- Helper: the resolution fold over one appended segment. -/
theorem resolveSegs_append_single (S : List (List Char)) (x : List Char) :
    resolveSegs (S ++ [x])
      = (if x = dotdotSeg then (resolveSegs S).dropLast
         else if x = dotSeg then resolveSegs S else resolveSegs S ++ [x]) := by
  unfold resolveSegs
  rw [List.foldl_append]
  rfl

/-- Helper: `'/'.join(...) or '/'` then `rstrip('/')` absorbs a final slash. -/
theorem rstrip_orSlash_append_slash (J : List Char) :
    rstripSlash (orSlash (J ++ ['/'])) = rstripSlash (orSlash J) := by
  by_cases hJ : J = []
  · subst hJ
    rfl
  · unfold orSlash
    rw [if_neg (by simp), if_neg hJ]
    exact rstripSlash_append_slash J

/-- Helper: appending one empty segment to a non-empty segment list does not
change the resolved path up to trailing slashes. -/
theorem coreSlash (T : List (List Char)) (hT : T ≠ []) :
    rstripSlash (orSlash (joinSlash (postResolve (T ++ [[]]))))
      = rstripSlash (orSlash (joinSlash (postResolve T))) := by
  have hlast : (T ++ [[]]).getLastD [] = [] := getLastD_append_single [] T []
  have hres : resolveSegs (T ++ [[]]) = resolveSegs T ++ [[]] := by
    rw [resolveSegs_append_single]
    rw [if_neg (by simp [dotdotSeg]), if_neg (by simp [dotSeg])]
  by_cases hdot : T.getLastD [] = dotSeg ∨ T.getLastD [] = dotdotSeg
  · have h1 : postResolve (T ++ [[]]) = resolveSegs T ++ [[]] := by
      unfold postResolve
      rw [hlast, hres, if_neg (by simp [dotSeg, dotdotSeg])]
    have h2 : postResolve T = resolveSegs T ++ [[]] := by
      unfold postResolve
      rw [if_pos hdot]
    rw [h1, h2]
  · push_neg at hdot
    have h1 : postResolve (T ++ [[]]) = resolveSegs T ++ [[]] := by
      unfold postResolve
      rw [hlast, hres, if_neg (by simp [dotSeg, dotdotSeg])]
    have h2 : postResolve T = resolveSegs T := by
      unfold postResolve
      rw [if_neg (by rw [not_or]; exact hdot)]
    have hTne : resolveSegs T ≠ [] := by
      have hd : T.dropLast ++ [T.getLastD []] = T := dropLast_append_getLastD T hT []
      have : resolveSegs T = resolveSegs T.dropLast ++ [T.getLastD []] := by
        conv_lhs => rw [← hd]
        rw [resolveSegs_append_single, if_neg hdot.2, if_neg hdot.1]
      rw [this]
      simp
    rw [h1, h2, joinSlash_append_nil _ hTne]
    exact rstrip_orSlash_append_slash (joinSlash (resolveSegs T))

/-- Helper: relative segments of a path with a trailing slash appended. -/
theorem relSegments_append_slash (p : List Char) :
    relSegments (p ++ ['/'])
      = (if (splitSlash p).getLastD [] = [] then relSegments p
         else relSegments p ++ [[]]) := by
  have hne := splitSlash_ne_nil p
  have hdecomp := dropLast_append_getLastD (splitSlash p) hne []
  simp only [relSegments, splitSlash_append_slash, List.dropLast_concat,
    getLastD_append_single]
  conv_lhs => rw [← hdecomp, List.filter_append]
  by_cases hl : (splitSlash p).getLastD [] = []
  · rw [if_pos hl, hl]
    simp
  · rw [if_neg hl]
    have hfl : (List.filter (fun x => decide (x ≠ [])) [(splitSlash p).getLastD []])
        = [(splitSlash p).getLastD []] := by
      simp only [List.filter_cons, List.filter_nil]
      rw [if_pos (decide_eq_true hl)]
    rw [hfl]
    simp

/-- Helper: trailing-slash invariance of the absolute-path resolution. -/
theorem abs_resolution (x : List Char) :
    rstripSlash (orSlash (joinSlash (postResolve (splitSlash (x ++ ['/'])))))
      = rstripSlash (orSlash (joinSlash (postResolve (splitSlash x)))) := by
  rw [splitSlash_append_slash]
  exact coreSlash (splitSlash x) (splitSlash_ne_nil x)

/-- Helper: trailing-slash invariance of the relative-path resolution. -/
theorem rel_resolution (x : List Char) :
    rstripSlash (orSlash (joinSlash (postResolve (relSegments (x ++ ['/'])))))
      = rstripSlash (orSlash (joinSlash (postResolve (relSegments x)))) := by
  rw [relSegments_append_slash]
  by_cases hl : (splitSlash x).getLastD [] = []
  · rw [if_pos hl]
  · rw [if_neg hl]
    exact coreSlash (relSegments x) (by unfold relSegments; simp)

/-- Helper: `urlunparse` is the identity when every component except the
path is empty. -/
theorem urlunparse_empty_id (X : List Char) : urlunparseL [] [] X [] [] [] = X := by
  simp [urlunparseL, urlunsplitL]

/-- Helper: reassembly with a non-empty netloc and a path that is empty or
absolute sends a trailing path slash to a trailing output slash. -/
theorem urlunparse_netloc_slash (netloc r2 : List Char) (hnl : netloc ≠ [])
    (hr : r2 = [] ∨ r2.take 1 = ['/']) :
    urlunparseL [] netloc (r2 ++ ['/']) [] [] []
      = urlunparseL [] netloc r2 [] [] [] ++ ['/'] := by
  have h1 : ¬ (r2 ++ ['/'] ≠ [] ∧ (r2 ++ ['/']).take 1 ≠ ['/']) := by
    rcases hr with h | h
    · subst h
      simp
    · intro hc
      apply hc.2
      cases r2 with
      | nil => simp at h
      | cons c t => simpa using h
  have h2 : ¬ (r2 ≠ [] ∧ r2.take 1 ≠ ['/']) := by
    rcases hr with h | h
    · subst h; simp
    · intro hc; exact hc.2 h
  have h3 : (r2 ++ ['/']).take 1 = ['/'] := by
    rcases hr with h | h
    · subst h; rfl
    · cases r2 with
      | nil => rfl
      | cons c t => simpa using h
  simp only [urlunparseL, urlunsplitL]
  simp [hnl, h1, h2, h3]

/-- Helper: appending a non-colon character commutes with the colon split. -/
theorem findColon_append_slash : ∀ (l : List Char),
    findColon (l ++ ['/']) = (findColon l).map (fun pr => (pr.1, pr.2 ++ ['/']))
  | [] => rfl
  | c :: rest => by
    show findColon (c :: (rest ++ ['/'])) = _
    simp only [findColon]
    by_cases hc : c = ':'
    · rw [if_pos hc, if_pos hc]
      rfl
    · rw [if_neg hc, if_neg hc, findColon_append_slash rest]
      cases findColon rest with
      | none => rfl
      | some pr => rfl

/-- Helper: the colon split decomposes its input. -/
theorem findColon_decomp : ∀ (l : List Char) (pre post : List Char),
    findColon l = some (pre, post) → l = pre ++ ':' :: post
  | [], pre, post, h => by exact Option.noConfusion h
  | c :: rest, pre, post, h => by
    simp only [findColon] at h
    by_cases hc : c = ':'
    · rw [if_pos hc] at h
      cases h
      rw [hc]
      rfl
    · rw [if_neg hc] at h
      cases hfc : findColon rest with
      | none => rw [hfc] at h; simp at h
      | some pr =>
        rw [hfc] at h
        simp only [Option.map_some'] at h
        cases h
        have := findColon_decomp rest pr.1 pr.2 (by rw [hfc])
        rw [List.cons_append, ← this]

/-- Helper: appending a slash commutes with scheme detection. -/
theorem splitScheme_append_slash (l : List Char) :
    splitScheme (l ++ ['/'])
      = (splitScheme l).map (fun pr => (pr.1, pr.2 ++ ['/'])) := by
  unfold splitScheme
  rw [findColon_append_slash]
  cases findColon l with
  | none => rfl
  | some pr =>
    obtain ⟨pre, post⟩ := pr
    simp only [Option.map_some']
    cases pre with
    | nil => rfl
    | cons c t =>
      dsimp only
      by_cases hcond : isAsciiAlpha c ∧ (c :: t).all isSchemeChar
      · rw [if_pos hcond, if_pos hcond]
        rfl
      · rw [if_neg hcond, if_neg hcond]
        rfl

/-- Helper: a detected scheme is never empty. -/
theorem splitScheme_some_ne_nil (l sch rest : List Char)
    (h : splitScheme l = some (sch, rest)) : sch ≠ [] := by
  unfold splitScheme at h
  cases hfc : findColon l with
  | none => rw [hfc] at h; simp at h
  | some pr =>
    rw [hfc] at h
    obtain ⟨pre, post⟩ := pr
    cases pre with
    | nil => simp at h
    | cons c t =>
      dsimp only at h
      by_cases hcond : isAsciiAlpha c ∧ (c :: t).all isSchemeChar
      · rw [if_pos hcond] at h
        cases h
        simp [lowerL]
      · rw [if_neg hcond] at h
        simp at h

/-- Helper: every character of the post-colon part occurs in the input. -/
theorem findColon_post_subset (l pre post : List Char)
    (h : findColon l = some (pre, post)) : ∀ c ∈ post, c ∈ l := by
  intro c hc
  rw [findColon_decomp l pre post h]
  exact List.mem_append_right pre (List.mem_cons_of_mem ':' hc)

/-- Helper: the untouched second component of a missing split. -/
theorem splitOnFirstOpt_of_not_mem (c : Char) :
    ∀ (l : List Char), c ∉ l → splitOnFirstOpt c l = none
  | [], _ => rfl
  | x :: rest, h => by
    simp only [splitOnFirstOpt]
    rw [if_neg (fun e => h (by rw [e]; exact List.mem_cons_self c rest))]
    rw [splitOnFirstOpt_of_not_mem c rest (fun hm => h (List.mem_cons_of_mem x hm))]
    rfl

/-- Helper: splitting on an absent character leaves the input whole. -/
theorem splitOnFirst_of_not_mem (c : Char) (l : List Char) (h : c ∉ l) :
    splitOnFirst c l = (l, []) := by
  unfold splitOnFirst
  rw [splitOnFirstOpt_of_not_mem c l h]

/-- Helper: `takeWhile` ignores an appended element that fails the predicate. -/
theorem takeWhile_append_single_neg (P : Char → Bool) (a : Char) (ha : P a = false) :
    ∀ (l : List Char), (l ++ [a]).takeWhile P = l.takeWhile P := by
  intro l
  rw [List.takeWhile_append]
  split
  · rename_i hlen
    have hpre : List.takeWhile P l <+: l := List.takeWhile_prefix P
    have heq : List.takeWhile P l = l := hpre.eq_of_length hlen
    have h2 : List.takeWhile P [a] = [] := by simp [List.takeWhile, ha]
    rw [h2, List.append_nil, heq]
  · rfl

/-- Helper: `dropWhile` passes an appended element that fails the predicate
through to the tail. -/
theorem dropWhile_append_single_neg (P : Char → Bool) (a : Char) (ha : P a = false) :
    ∀ (l : List Char), (l ++ [a]).dropWhile P = l.dropWhile P ++ [a] := by
  intro l
  rw [List.dropWhile_append]
  split
  · rename_i he
    rw [List.isEmpty_iff] at he
    rw [he]
    simp [List.dropWhile, ha]
  · rfl

/-- Helper: the head surviving a `dropWhile` fails the predicate. -/
theorem dropWhile_head_false (P : Char → Bool) :
    ∀ (l : List Char) (c : Char) (t : List Char),
      l.dropWhile P = c :: t → P c = false
  | [], c, t, h => by simp [List.dropWhile] at h
  | x :: rest, c, t, h => by
    simp only [List.dropWhile] at h
    cases hx : P x with
    | true =>
      rw [hx] at h
      exact dropWhile_head_false P rest c t h
    | false =>
      rw [hx] at h
      cases h
      exact hx

/-- Helper: members of a `takeWhile` are members of the list. -/
theorem mem_of_mem_takeWhile (P : Char → Bool) :
    ∀ (l : List Char) (c : Char), c ∈ l.takeWhile P → c ∈ l
  | [], c, h => by simp [List.takeWhile] at h
  | x :: rest, c, h => by
    simp only [List.takeWhile] at h
    cases hx : P x with
    | true =>
      rw [hx] at h
      rcases List.mem_cons.mp h with he | hm
      · exact List.mem_cons.mpr (Or.inl he)
      · exact List.mem_cons_of_mem x (mem_of_mem_takeWhile P rest c hm)
    | false =>
      rw [hx] at h
      simp at h

/-- Helper: members of a `dropWhile` are members of the list. -/
theorem mem_of_mem_dropWhile (P : Char → Bool) :
    ∀ (l : List Char) (c : Char), c ∈ l.dropWhile P → c ∈ l
  | [], c, h => by simp [List.dropWhile] at h
  | x :: rest, c, h => by
    simp only [List.dropWhile] at h
    cases hx : P x with
    | true =>
      rw [hx] at h
      exact List.mem_cons_of_mem x (mem_of_mem_dropWhile P rest c h)
    | false =>
      rw [hx] at h
      exact h

/-- Helper: members of the cleaned URL are members of the raw URL. -/
theorem mem_of_mem_cleanUrl (l : List Char) (c : Char) (h : c ∈ cleanUrl l) : c ∈ l := by
  unfold cleanUrl at h
  exact mem_of_mem_dropWhile isC0OrSpace l c (List.mem_of_mem_filter h)

/-- Helper: the character-freeness condition transfers to the cleaned URL. -/
theorem pathOkChars_cleanUrl (p : List Char) (h : pathOkChars p) :
    pathOkChars (cleanUrl p) := by
  obtain ⟨h1, h2, h3, h4, h5⟩ := h
  exact ⟨fun hc => h1 (mem_of_mem_cleanUrl p _ hc),
         fun hc => h2 (mem_of_mem_cleanUrl p _ hc),
         fun hc => h3 (mem_of_mem_cleanUrl p _ hc),
         fun hc => h4 (mem_of_mem_cleanUrl p _ hc),
         fun hc => h5 (mem_of_mem_cleanUrl p _ hc)⟩

/-- Helper: cleaning commutes with appending a slash. -/
theorem cleanUrl_append_slash (p : List Char) :
    cleanUrl (p ++ ['/']) = cleanUrl p ++ ['/'] := by
  unfold cleanUrl
  rw [List.dropWhile_append]
  split
  · rename_i he
    rw [List.isEmpty_iff] at he
    rw [he]
    rfl
  · rw [List.filter_append]
    rfl

/-- Helper: netloc splitting succeeds on bracket-free input. -/
theorem splitNetloc_ok (l : List Char) (hbr1 : '[' ∉ l) (hbr2 : ']' ∉ l) :
    splitNetloc l
      = .ok (l.takeWhile (fun c => ¬ (c = '/' ∨ c = '?' ∨ c = '#')),
             l.dropWhile (fun c => ¬ (c = '/' ∨ c = '?' ∨ c = '#'))) := by
  unfold splitNetloc
  rw [if_neg]
  intro hc
  rcases hc with h | h
  · exact hbr1 (mem_of_mem_takeWhile _ l '[' h)
  · exact hbr2 (mem_of_mem_takeWhile _ l ']' h)

/-- Helper: `urlsplit` on a cleaned input with no scheme, no netloc marker,
and no fragment/query characters returns the input as the path. -/
theorem urlsplitE_no_scheme (p q : List Char) (hclean : cleanUrl p = q)
    (hss : splitScheme q = none) (hnet : ¬ (q.take 2 = ['/', '/']))
    (hq1 : '#' ∉ q) (hq2 : '?' ∉ q) :
    urlsplitE p = .ok ⟨[], [], q, [], []⟩ := by
  simp only [urlsplitE, hclean, hss]
  rw [if_neg hnet]
  dsimp only
  rw [splitOnFirst_of_not_mem '#' q hq1]
  dsimp only
  rw [splitOnFirst_of_not_mem '?' q hq2]

/-- Helper: `urlsplit` on a cleaned `//`-prefixed input with no scheme and
clean characters: the netloc is the bracket-free segment before the first
slash, the path is the remainder. -/
theorem urlsplitE_netloc (p q2 : List Char) (hclean : cleanUrl p = '/' :: '/' :: q2)
    (hss : splitScheme ('/' :: '/' :: q2) = none)
    (hbr1 : '[' ∉ q2) (hbr2 : ']' ∉ q2) (hq1 : '#' ∉ q2) (hq2 : '?' ∉ q2) :
    urlsplitE p
      = .ok ⟨[], q2.takeWhile (fun c => ¬ (c = '/' ∨ c = '?' ∨ c = '#')),
             q2.dropWhile (fun c => ¬ (c = '/' ∨ c = '?' ∨ c = '#')), [], []⟩ := by
  have hmemtake : ∀ c ∈ q2.dropWhile (fun c => ¬ (c = '/' ∨ c = '?' ∨ c = '#')), c ∈ q2 :=
    fun c hc => mem_of_mem_dropWhile _ q2 c hc
  simp only [urlsplitE, hclean, hss]
  have htake : List.take 2 ('/' :: '/' :: q2) = ['/', '/'] := rfl
  rw [if_pos htake]
  have hdrop : List.drop 2 ('/' :: '/' :: q2) = q2 := rfl
  rw [hdrop, splitNetloc_ok q2 hbr1 hbr2]
  dsimp only
  rw [splitOnFirst_of_not_mem '#' _ (fun hc => hq1 (hmemtake '#' hc))]
  dsimp only
  rw [splitOnFirst_of_not_mem '?' _ (fun hc => hq2 (hmemtake '?' hc))]

/-- Helper: when a scheme is detected, `urlparse` reports that scheme
whatever else happens (the params split preserves it). -/
theorem urlparseE_scheme_eq (l : List Char) (s : SplitRes) (h : urlsplitE l = .ok s) :
    ∃ r : ParseRes, urlparseE l = .ok r ∧ r.scheme = s.scheme := by
  unfold urlparseE
  rw [h]
  dsimp only
  split
  · exact ⟨_, rfl, rfl⟩
  · exact ⟨_, rfl, rfl⟩

/-- Helper: `urlparse` with a semicolon-free path performs no params split. -/
theorem urlparseE_no_semi (l : List Char) (s : SplitRes) (h : urlsplitE l = .ok s)
    (hsemi : ';' ∉ s.path) :
    urlparseE l = .ok ⟨s.scheme, s.netloc, s.path, [], s.query, s.fragment⟩ := by
  unfold urlparseE
  rw [h]
  dsimp only
  rw [if_neg (fun hc => hsemi hc.2)]

/-- Helper: `urlsplit` under a detected scheme whose remainder is free of
brackets, fragment and query characters succeeds and keeps the scheme. -/
theorem urlsplitE_scheme (p q sch rest : List Char) (hclean : cleanUrl p = q)
    (hss : splitScheme q = some (sch, rest))
    (hbr1 : '[' ∉ rest) (hbr2 : ']' ∉ rest) :
    ∃ s : SplitRes, urlsplitE p = .ok s ∧ s.scheme = sch := by
  simp only [urlsplitE, hclean, hss]
  by_cases hnet : rest.take 2 = ['/', '/']
  · rw [if_pos hnet]
    have hbr1d : '[' ∉ rest.drop 2 := fun hc => hbr1 (List.mem_of_mem_drop hc)
    have hbr2d : ']' ∉ rest.drop 2 := fun hc => hbr2 (List.mem_of_mem_drop hc)
    rw [splitNetloc_ok _ hbr1d hbr2d]
    exact ⟨_, rfl, rfl⟩
  · rw [if_neg hnet]
    exact ⟨_, rfl, rfl⟩

/-- Helper: a character of the scheme remainder occurs in the input. -/
theorem splitScheme_post_subset (l sch rest : List Char)
    (h : splitScheme l = some (sch, rest)) : ∀ c ∈ rest, c ∈ l := by
  unfold splitScheme at h
  cases hfc : findColon l with
  | none => rw [hfc] at h; exact absurd h (by simp)
  | some pr =>
    rw [hfc] at h
    obtain ⟨pre, post⟩ := pr
    cases pre with
    | nil => exact absurd h (by simp)
    | cons c0 t =>
      dsimp only at h
      by_cases hcond : isAsciiAlpha c0 ∧ (c0 :: t).all isSchemeChar
      · rw [if_pos hcond] at h
        cases h
        exact findColon_post_subset l (c0 :: t) rest (by rw [hfc])
      · rw [if_neg hcond] at h
        exact absurd h (by simp)

/-- Helper: `urljoin('/', ·)` returns the raw input when a scheme was
detected. -/
theorem urljoinRootE_scheme_branch (p : List Char) (hp : p ≠ []) (r : ParseRes)
    (hr : urlparseE p = .ok r) (hsch : r.scheme ≠ []) :
    urljoinRootE p = .ok p := by
  unfold urljoinRootE
  rw [if_neg hp, hr]
  dsimp only
  rw [if_pos hsch]

/-- Helper: `urljoin('/', ·)` reassembles directly when the parsed input has
a non-empty netloc. -/
theorem urljoinRootE_netloc_branch (p : List Char) (hp : p ≠ []) (r : ParseRes)
    (hr : urlparseE p = .ok r) (hsch : r.scheme = []) (hnl : r.netloc ≠ []) :
    urljoinRootE p
      = .ok (urlunparseL r.scheme r.netloc r.path r.params r.query r.fragment) := by
  unfold urljoinRootE
  rw [if_neg hp, hr]
  dsimp only
  rw [if_neg (by rw [hsch]; simp), if_pos hnl]

/-- Helper: `urljoin('/', ·)` takes the base path when both path and params
are empty. -/
theorem urljoinRootE_base_branch (p : List Char) (hp : p ≠ []) (r : ParseRes)
    (hr : urlparseE p = .ok r) (hsch : r.scheme = []) (hnl : r.netloc = [])
    (hpath : r.path = []) (hparams : r.params = [])
    (hquery : r.query = []) (hfrag : r.fragment = []) :
    urljoinRootE p = .ok ['/'] := by
  unfold urljoinRootE
  rw [if_neg hp, hr]
  dsimp only
  rw [if_neg (by rw [hsch]; simp), if_neg (by rw [hnl]; simp),
    if_pos ⟨hpath, hparams⟩, hsch, hquery, hfrag]
  rfl

/-- Helper: `urljoin('/', ·)` resolves the path segment-wise in the
remaining case; with empty params/query/fragment the reassembly is the
resolved path itself. -/
theorem urljoinRootE_resolve_branch (p : List Char) (hp : p ≠ []) (r : ParseRes)
    (hr : urlparseE p = .ok r) (hsch : r.scheme = []) (hnl : r.netloc = [])
    (hpp : ¬ (r.path = [] ∧ r.params = [])) (hparams : r.params = [])
    (hquery : r.query = []) (hfrag : r.fragment = []) :
    urljoinRootE p
      = .ok (orSlash (joinSlash (postResolve
          (if r.path.take 1 = ['/'] then splitSlash r.path
           else relSegments r.path)))) := by
  unfold urljoinRootE
  rw [if_neg hp, hr]
  dsimp only
  rw [if_neg (by rw [hsch]; simp), if_neg (by rw [hnl]; simp), if_neg hpp,
    hparams, hquery, hfrag, urlunparse_empty_id]

/-- Helper (main trailing-slash lemma): for a path free of `# ? ; [ ]`, the
root-based join succeeds on the path and on the path with a slash appended,
and the two results agree once trailing slashes are stripped. -/
theorem urljoinRootE_append_slash (p : List Char) (hok : pathOkChars p) :
    ∃ j j2, urljoinRootE p = .ok j ∧ urljoinRootE (p ++ ['/']) = .ok j2 ∧
      rstripSlash j2 = rstripSlash j := by
  by_cases hp : p = []
  · subst hp
    exact ⟨['/'], ['/'], rfl, by decide, rfl⟩
  have hp' : p ++ ['/'] ≠ [] := by simp
  obtain ⟨hc1, hc2, hc3, hc4, hc5⟩ := pathOkChars_cleanUrl p hok
  have hclean' : cleanUrl (p ++ ['/']) = cleanUrl p ++ ['/'] := cleanUrl_append_slash p
  by_cases hq0 : cleanUrl p = []
  · -- the input cleans to nothing: both sides normalize to the base path
    have hs1 : urlsplitE p = .ok ⟨[], [], [], [], []⟩ :=
      urlsplitE_no_scheme p [] hq0 rfl (by decide) (by simp) (by simp)
    have hr1 : urlparseE p = .ok ⟨[], [], [], [], [], []⟩ :=
      urlparseE_no_semi p _ hs1 (by simp)
    have hclean2 : cleanUrl (p ++ ['/']) = ['/'] := by rw [hclean', hq0]; rfl
    have hs2 : urlsplitE (p ++ ['/']) = .ok ⟨[], [], ['/'], [], []⟩ :=
      urlsplitE_no_scheme (p ++ ['/']) ['/'] hclean2 rfl (by decide) (by decide) (by decide)
    have hr2 : urlparseE (p ++ ['/']) = .ok ⟨[], [], ['/'], [], [], []⟩ :=
      urlparseE_no_semi _ _ hs2 (by decide)
    refine ⟨['/'], ['/'], ?_, ?_, rfl⟩
    · exact urljoinRootE_base_branch p hp _ hr1 rfl rfl rfl rfl rfl rfl
    · rw [urljoinRootE_resolve_branch (p ++ ['/']) hp' _ hr2 rfl rfl
        (by intro hcon; exact absurd hcon.1 (by decide)) rfl rfl rfl]
      decide
  by_cases hscheme : ∃ pr, splitScheme (cleanUrl p) = some pr
  · -- a scheme is detected: the join returns the raw input on both sides
    obtain ⟨⟨sch, rest⟩, hssome⟩ := hscheme
    have hsub := splitScheme_post_subset (cleanUrl p) sch rest hssome
    have hbr1 : '[' ∉ rest := fun hm => hc4 (hsub '[' hm)
    have hbr2 : ']' ∉ rest := fun hm => hc5 (hsub ']' hm)
    have hss' : splitScheme (cleanUrl p ++ ['/']) = some (sch, rest ++ ['/']) := by
      rw [splitScheme_append_slash, hssome]
      rfl
    have hbr1' : '[' ∉ rest ++ ['/'] := by
      intro hm
      rcases List.mem_append.mp hm with h | h
      · exact hbr1 h
      · simp at h
    have hbr2' : ']' ∉ rest ++ ['/'] := by
      intro hm
      rcases List.mem_append.mp hm with h | h
      · exact hbr2 h
      · simp at h
    obtain ⟨s1, hs1, hsch1⟩ := urlsplitE_scheme p (cleanUrl p) sch rest rfl hssome hbr1 hbr2
    obtain ⟨r1, hr1, hrs1⟩ := urlparseE_scheme_eq p s1 hs1
    obtain ⟨s2, hs2, hsch2⟩ :=
      urlsplitE_scheme (p ++ ['/']) (cleanUrl p ++ ['/']) sch (rest ++ ['/'])
        hclean' hss' hbr1' hbr2'
    obtain ⟨r2, hr2, hrs2⟩ := urlparseE_scheme_eq (p ++ ['/']) s2 hs2
    have hschne : sch ≠ [] := splitScheme_some_ne_nil _ _ _ hssome
    refine ⟨p, p ++ ['/'], ?_, ?_, rstripSlash_append_slash p⟩
    · exact urljoinRootE_scheme_branch p hp r1 hr1 (by rw [hrs1, hsch1]; exact hschne)
    · exact urljoinRootE_scheme_branch (p ++ ['/']) hp' r2 hr2
        (by rw [hrs2, hsch2]; exact hschne)
  · -- no scheme
    have hssn : splitScheme (cleanUrl p) = none := by
      cases hv : splitScheme (cleanUrl p) with
      | none => rfl
      | some pr => exact absurd ⟨pr, hv⟩ hscheme
    have hssn' : splitScheme (cleanUrl p ++ ['/']) = none := by
      rw [splitScheme_append_slash, hssn]
      rfl
    by_cases hqslash : cleanUrl p = ['/']
    · -- boundary: "/" against "//"
      have hs1 : urlsplitE p = .ok ⟨[], [], ['/'], [], []⟩ :=
        urlsplitE_no_scheme p ['/'] hqslash (by rw [← hqslash]; exact hssn)
          (by decide) (by decide) (by decide)
      have hr1 : urlparseE p = .ok ⟨[], [], ['/'], [], [], []⟩ :=
        urlparseE_no_semi p _ hs1 (by decide)
      have hclean2 : cleanUrl (p ++ ['/']) = '/' :: '/' :: [] := by
        rw [hclean', hqslash]
        rfl
      have hs2 : urlsplitE (p ++ ['/']) = .ok ⟨[], [], [], [], []⟩ := by
        have := urlsplitE_netloc (p ++ ['/']) [] hclean2 (by decide)
          (by simp) (by simp) (by simp) (by simp)
        simpa using this
      have hr2 : urlparseE (p ++ ['/']) = .ok ⟨[], [], [], [], [], []⟩ :=
        urlparseE_no_semi _ _ hs2 (by simp)
      refine ⟨['/'], ['/'], ?_, ?_, rfl⟩
      · rw [urljoinRootE_resolve_branch p hp _ hr1 rfl rfl
          (by intro hcon; exact absurd hcon.1 (by decide)) rfl rfl rfl]
        decide
      · exact urljoinRootE_base_branch (p ++ ['/']) hp' _ hr2 rfl rfl rfl rfl rfl rfl
    by_cases hnet : (cleanUrl p).take 2 = ['/', '/']
    · -- netloc form: q = '/' :: '/' :: q2
      obtain ⟨q2, hq2eq⟩ : ∃ q2, cleanUrl p = '/' :: '/' :: q2 := by
        cases hcq : cleanUrl p with
        | nil => exact absurd hcq hq0
        | cons a t =>
          cases t with
          | nil =>
            rw [hcq] at hnet
            exact absurd hnet (by simp)
          | cons b t2 =>
            rw [hcq] at hnet
            simp only [List.take] at hnet
            obtain ⟨ha, hb⟩ : a = '/' ∧ b = '/' := by simpa using hnet
            exact ⟨t2, by rw [ha, hb]⟩
      have hq2sub : ∀ c ∈ q2, c ∈ cleanUrl p := by
        intro c hm
        rw [hq2eq]
        exact List.mem_cons_of_mem _ (List.mem_cons_of_mem _ hm)
      have hb1 : '[' ∉ q2 := fun hm => hc4 (hq2sub '[' hm)
      have hb2 : ']' ∉ q2 := fun hm => hc5 (hq2sub ']' hm)
      have hh1 : '#' ∉ q2 := fun hm => hc1 (hq2sub '#' hm)
      have hh2 : '?' ∉ q2 := fun hm => hc2 (hq2sub '?' hm)
      have hs1 := urlsplitE_netloc p q2 hq2eq (by rw [← hq2eq]; exact hssn) hb1 hb2 hh1 hh2
      have hdropsub : ∀ c ∈ List.dropWhile (fun c => ¬ (c = '/' ∨ c = '?' ∨ c = '#')) q2,
          c ∈ q2 := fun c hm => mem_of_mem_dropWhile _ q2 c hm
      have hr1 := urlparseE_no_semi p _ hs1
        (fun hm => hc3 (hq2sub ';' (hdropsub ';' hm)))
      have hclean2 : cleanUrl (p ++ ['/']) = '/' :: '/' :: (q2 ++ ['/']) := by
        rw [hclean', hq2eq]
        rfl
      have hss2 : splitScheme ('/' :: '/' :: (q2 ++ ['/'])) = none := by
        rw [← hclean2, hclean']
        exact hssn'
      have hb1' : '[' ∉ q2 ++ ['/'] := by
        intro hm; rcases List.mem_append.mp hm with h | h
        · exact hb1 h
        · simp at h
      have hb2' : ']' ∉ q2 ++ ['/'] := by
        intro hm; rcases List.mem_append.mp hm with h | h
        · exact hb2 h
        · simp at h
      have hh1' : '#' ∉ q2 ++ ['/'] := by
        intro hm; rcases List.mem_append.mp hm with h | h
        · exact hh1 h
        · simp at h
      have hh2' : '?' ∉ q2 ++ ['/'] := by
        intro hm; rcases List.mem_append.mp hm with h | h
        · exact hh2 h
        · simp at h
      have hs2 := urlsplitE_netloc (p ++ ['/']) (q2 ++ ['/']) hclean2 hss2 hb1' hb2' hh1' hh2'
      have htw : List.takeWhile (fun c => ¬ (c = '/' ∨ c = '?' ∨ c = '#')) (q2 ++ ['/'])
          = List.takeWhile (fun c => ¬ (c = '/' ∨ c = '?' ∨ c = '#')) q2 :=
        takeWhile_append_single_neg _ '/' (by decide) q2
      have hdw : List.dropWhile (fun c => ¬ (c = '/' ∨ c = '?' ∨ c = '#')) (q2 ++ ['/'])
          = List.dropWhile (fun c => ¬ (c = '/' ∨ c = '?' ∨ c = '#')) q2 ++ ['/'] :=
        dropWhile_append_single_neg _ '/' (by decide) q2
      rw [htw, hdw] at hs2
      have hr2 := urlparseE_no_semi (p ++ ['/']) _ hs2
        (by
          intro hm
          rcases List.mem_append.mp hm with h | h
          · exact hc3 (hq2sub ';' (hdropsub ';' h))
          · simp at h)
      -- name the two halves of the netloc split
      have hr2shape : List.dropWhile (fun c => ¬ (c = '/' ∨ c = '?' ∨ c = '#')) q2 = []
          ∨ (List.dropWhile (fun c => ¬ (c = '/' ∨ c = '?' ∨ c = '#')) q2).take 1 = ['/'] := by
        cases hv : List.dropWhile (fun c => ¬ (c = '/' ∨ c = '?' ∨ c = '#')) q2 with
        | nil => exact Or.inl rfl
        | cons c t =>
          right
          have hcf := dropWhile_head_false _ q2 c t hv
          have hcin : c ∈ q2 := hdropsub c (by rw [hv]; exact List.mem_cons_self c t)
          have hA : c = '/' ∨ c = '?' ∨ c = '#' := not_not.mp (of_decide_eq_false hcf)
          rcases hA with h | h | h
          · rw [h]; rfl
          · exact absurd (h ▸ hcin) hh2
          · exact absurd (h ▸ hcin) hh1
      by_cases hnl : List.takeWhile (fun c => ¬ (c = '/' ∨ c = '?' ∨ c = '#')) q2 = []
      · -- empty netloc: fall through to the path branches
        rw [hnl] at hs1 hs2
        have hr1' := urlparseE_no_semi p _ hs1
          (fun hm => hc3 (hq2sub ';' (hdropsub ';' hm)))
        have hr2' := urlparseE_no_semi (p ++ ['/']) _ hs2
          (by
            intro hm
            rcases List.mem_append.mp hm with h | h
            · exact hc3 (hq2sub ';' (hdropsub ';' h))
            · simp at h)
        rcases hr2shape with hre | hrs
        · -- empty path: base branch against the resolution of "/"
          rw [hre] at hr1' hr2'
          refine ⟨['/'], ['/'], ?_, ?_, rfl⟩
          · exact urljoinRootE_base_branch p hp _ hr1' rfl rfl rfl rfl rfl rfl
          · rw [urljoinRootE_resolve_branch (p ++ ['/']) hp' _ hr2' rfl rfl
              (by intro hcon; exact absurd hcon.1 (by decide)) rfl rfl rfl]
            decide
        · -- absolute path on both sides
          refine ⟨_, _,
            urljoinRootE_resolve_branch p hp _ hr1' rfl rfl
              (by
                intro hcon
                have := hcon.1
                dsimp only at this
                rw [this] at hrs
                exact absurd hrs (by decide)) rfl rfl rfl,
            urljoinRootE_resolve_branch (p ++ ['/']) hp' _ hr2' rfl rfl
              (by intro hcon; exact absurd hcon.1 (by simp)) rfl rfl rfl, ?_⟩
          dsimp only
          have htk1 : (List.dropWhile (fun c => ¬ (c = '/' ∨ c = '?' ∨ c = '#')) q2
              ++ ['/']).take 1 = ['/'] := by
            cases hv : List.dropWhile (fun c => ¬ (c = '/' ∨ c = '?' ∨ c = '#')) q2 with
            | nil => rfl
            | cons c t =>
              rw [hv] at hrs
              simpa using hrs
          rw [if_pos hrs, if_pos htk1]
          exact abs_resolution _
      · -- non-empty netloc: direct reassembly on both sides
        refine ⟨_, _,
          urljoinRootE_netloc_branch p hp _ hr1 rfl hnl,
          urljoinRootE_netloc_branch (p ++ ['/']) hp' _ hr2 rfl hnl, ?_⟩
        dsimp only
        rw [urlunparse_netloc_slash _ _ hnl hr2shape]
        exact rstripSlash_append_slash _
    · -- plain path, no netloc marker
      have hnet2 : ¬ ((cleanUrl p ++ ['/']).take 2 = ['/', '/']) := by
        cases hcq : cleanUrl p with
        | nil => exact absurd hcq hq0
        | cons a t =>
          cases t with
          | nil =>
            have ha : a ≠ '/' := by
              intro e
              exact hqslash (by rw [hcq, e])
            intro hcon
            simp only [List.cons_append, List.nil_append, List.take] at hcon
            exact ha (List.cons.injEq _ _ _ _ ▸ hcon).1
          | cons b t2 =>
            intro hcon
            apply hnet
            rw [hcq]
            simp only [List.cons_append, List.take] at hcon ⊢
            exact hcon
      have hs1 := urlsplitE_no_scheme p (cleanUrl p) rfl hssn hnet hc1 hc2
      have hr1 := urlparseE_no_semi p _ hs1 hc3
      have hm1' : '#' ∉ cleanUrl p ++ ['/'] := by
        intro hm; rcases List.mem_append.mp hm with h | h
        · exact hc1 h
        · simp at h
      have hm2' : '?' ∉ cleanUrl p ++ ['/'] := by
        intro hm; rcases List.mem_append.mp hm with h | h
        · exact hc2 h
        · simp at h
      have hm3' : ';' ∉ cleanUrl p ++ ['/'] := by
        intro hm; rcases List.mem_append.mp hm with h | h
        · exact hc3 h
        · simp at h
      have hs2 := urlsplitE_no_scheme (p ++ ['/']) (cleanUrl p ++ ['/'])
        hclean' hssn' hnet2 hm1' hm2'
      have hr2 := urlparseE_no_semi (p ++ ['/']) _ hs2 hm3'
      refine ⟨_, _,
        urljoinRootE_resolve_branch p hp _ hr1 rfl rfl
          (by intro hcon; exact absurd hcon.1 hq0) rfl rfl rfl,
        urljoinRootE_resolve_branch (p ++ ['/']) hp' _ hr2 rfl rfl
          (by intro hcon; exact absurd hcon.1 (by simp)) rfl rfl rfl, ?_⟩
      dsimp only
      have htke : (cleanUrl p ++ ['/']).take 1 = (cleanUrl p).take 1 := by
        cases hcq : cleanUrl p with
        | nil => exact absurd hcq hq0
        | cons a t => rfl
      rw [htke]
      by_cases habs : (cleanUrl p).take 1 = ['/']
      · rw [if_pos habs, if_pos habs]
        exact abs_resolution _
      · rw [if_neg habs, if_neg habs]
        exact rel_resolution _

/-- Helper: the canonical URL of a non-empty input with successful parse and
join is the reassembly of the lowercased scheme and netloc, the slash-
stripped joined path, and the query. -/
theorem canonicalize_eval (u : String) (hu : u ≠ "") (r : ParseRes)
    (hr : urlparseE u.data = .ok r) (j : List Char) (hj : urljoinRootE r.path = .ok j) :
    _canonicalize_url u
      = String.mk (urlunparseL (lowerL r.scheme) (lowerL r.netloc) (rstripSlash j)
          [] r.query []) := by
  unfold _canonicalize_url
  rw [if_neg hu, hr]
  dsimp only
  rw [hj]

/-- Helper: `urlparse` of the empty string. -/
theorem urlparseE_nil : urlparseE ([] : List Char) = .ok ⟨[], [], [], [], [], []⟩ := by
  decide

/-- Helper: lowercasing preserves emptiness. -/
theorem lowerL_eq_nil {x : List Char} (h : lowerL x = []) : x = [] := by
  simpa [lowerL] using h

/-- Helper: reassembly with everything empty except the query is injective
in the query. -/
theorem urlunparse_query_inj (A B C q1 q2 : List Char)
    (h : urlunparseL A B C [] q1 [] = urlunparseL A B C [] q2 []) : q1 = q2 := by
  unfold urlunparseL urlunsplitL at h
  by_cases h1 : q1 = []
  · by_cases h2 : q2 = []
    · rw [h1, h2]
    · rw [h1] at h
      simp only [h2, ne_eq, not_true_eq_false, if_false, not_false_eq_true, if_true] at h
      have := congrArg List.length h
      simp at this
  · by_cases h2 : q2 = []
    · rw [h2] at h
      simp only [h1, ne_eq, not_true_eq_false, if_false, not_false_eq_true, if_true] at h
      have := congrArg List.length h
      simp at this
    · simp only [h1, h2, ne_eq, not_true_eq_false, if_false, not_false_eq_true,
        if_true] at h
      have := List.append_cancel_left h
      exact (List.cons.injEq _ _ _ _ ▸ this).2

/-- C1, amended: two URLs whose parses agree on scheme and netloc up to
ASCII case and on the query, and whose paths are equal (with the path
normalization succeeding) or differ by one trailing slash with the paths
free of `# ? ; [ ]`, canonicalize identically; and — the claimed
consequence — within one run of the per-page URL loop at most one record is
appended per canonical URL. -/
theorem canonical_url_c1 (u1 u2 : String) (r1 r2 : ParseRes)
    (h1 : urlparseE u1.data = .ok r1) (h2 : urlparseE u2.data = .ok r2)
    (hscheme : lowerL r1.scheme = lowerL r2.scheme)
    (hnetloc : lowerL r1.netloc = lowerL r2.netloc)
    (hquery : r1.query = r2.query)
    (hpath : (r1.path = r2.path ∧ ∃ j, urljoinRootE r1.path = .ok j)
           ∨ (pathOkChars r1.path ∧ pathOkChars r2.path
              ∧ (r2.path = r1.path ++ ['/'] ∨ r1.path = r2.path ++ ['/']))) :
    _canonicalize_url u1 = _canonicalize_url u2
    ∧ ∀ (o : PageOracle) (urls processed : List String) (c : String),
        ((processUrls o urls processed).2.filter
          (fun r => _canonicalize_url (rowSrc r) = c)).length ≤ 1 := by
  constructor
  case right =>
    intro o urls processed c
    exact filter_length_le_one_of_nodup_map _ _ (processUrls_canon_nodup o urls processed) c
  case left =>
    by_cases hu1 : u1 = ""
    · -- the left URL is empty, so its components are all empty
      have hd1 : u1.data = [] := by rw [hu1]
      rw [hd1, urlparseE_nil] at h1
      have hr1e : r1 = ⟨[], [], [], [], [], []⟩ := by
        cases h1
        rfl
      subst hr1e
      have hsch2 : r2.scheme = [] := lowerL_eq_nil hscheme.symm
      have hnl2 : r2.netloc = [] := lowerL_eq_nil hnetloc.symm
      have hq2 : r2.query = [] := hquery.symm
      have hp2 : r2.path = [] ∨ r2.path = ['/'] := by
        rcases hpath with ⟨hpe, _⟩ | ⟨_, _, hor | hor⟩
        · exact Or.inl hpe.symm
        · exact Or.inr (by rw [hor]; rfl)
        · exact absurd hor.symm (by simp)
      by_cases hu2 : u2 = ""
      · rw [hu1, hu2]
      · have hj2 : urljoinRootE r2.path = .ok ['/'] := by
          rcases hp2 with h | h <;> rw [h] <;> decide
        rw [canonicalize_eval u2 hu2 r2 h2 ['/'] hj2]
        rw [hu1, hsch2, hnl2, hq2]
        decide
    · by_cases hu2 : u2 = ""
      · -- symmetric: the right URL is empty
        have hd2 : u2.data = [] := by rw [hu2]
        rw [hd2, urlparseE_nil] at h2
        have hr2e : r2 = ⟨[], [], [], [], [], []⟩ := by
          cases h2
          rfl
        subst hr2e
        have hsch1 : r1.scheme = [] := lowerL_eq_nil hscheme
        have hnl1 : r1.netloc = [] := lowerL_eq_nil hnetloc
        have hq1 : r1.query = [] := hquery
        have hp1 : r1.path = [] ∨ r1.path = ['/'] := by
          rcases hpath with ⟨hpe, _⟩ | ⟨_, _, hor | hor⟩
          · exact Or.inl hpe
          · exact absurd hor.symm (by simp)
          · exact Or.inr (by rw [hor]; rfl)
        have hj1 : urljoinRootE r1.path = .ok ['/'] := by
          rcases hp1 with h | h <;> rw [h] <;> decide
        rw [canonicalize_eval u1 hu1 r1 h1 ['/'] hj1]
        rw [hu2, hsch1, hnl1, hq1]
        decide
      · -- both non-empty
        rcases hpath with ⟨hpe, j, hj⟩ | ⟨hok1, hok2, hor⟩
        · have hj2 : urljoinRootE r2.path = .ok j := by rw [← hpe]; exact hj
          rw [canonicalize_eval u1 hu1 r1 h1 j hj,
            canonicalize_eval u2 hu2 r2 h2 j hj2, hscheme, hnetloc, hquery]
        · rcases hor with hsl | hsl
          · obtain ⟨j, j2, hj, hj2, hrs⟩ := urljoinRootE_append_slash r1.path hok1
            rw [canonicalize_eval u1 hu1 r1 h1 j hj,
              canonicalize_eval u2 hu2 r2 h2 j2 (by rw [hsl]; exact hj2),
              hscheme, hnetloc, hquery, hrs]
          · obtain ⟨j, j2, hj, hj2, hrs⟩ := urljoinRootE_append_slash r2.path hok2
            rw [canonicalize_eval u1 hu1 r1 h1 j2 (by rw [hsl]; exact hj2),
              canonicalize_eval u2 hu2 r2 h2 j hj,
              hscheme, hnetloc, hquery, hrs]

/-- C1, counterexample to the claim as stated.  The URL strings
`http://h/a;p` and `http://h/a;p/` are textually distinct and differ only by
a trailing slash on the path, yet canonicalize differently: in the first,
`urlparse` splits `;p` off as params (which `_canonicalize_url` discards),
while in the second the `;` sits before the last slash and survives in the
path. -/
theorem canonical_url_c1_counterexample :
    ("http://h/a;p/" : String).data = ("http://h/a;p" : String).data ++ ['/']
    ∧ _canonicalize_url "http://h/a;p" = "http://h/a"
    ∧ _canonicalize_url "http://h/a;p/" = "http://h/a;p"
    ∧ _canonicalize_url "http://h/a;p" ≠ _canonicalize_url "http://h/a;p/" := by
  refine ⟨by decide, by decide, by decide, by decide⟩

/-- C1, witness for the amended theorem: scheme/host case, fragment and
trailing slash all normalize away together. -/
theorem canonical_url_c1_witness :
    _canonicalize_url "http://Example.COM/a?x=1#f1"
      = _canonicalize_url "http://example.com/a/?x=1" :=
  (canonical_url_c1 "http://Example.COM/a?x=1#f1" "http://example.com/a/?x=1"
    ⟨"http".data, "Example.COM".data, "/a".data, [], "x=1".data, "f1".data⟩
    ⟨"http".data, "example.com".data, "/a/".data, [], "x=1".data, []⟩
    (by decide) (by decide) (by decide) (by decide) (by decide)
    (Or.inr ⟨by unfold pathOkChars; decide, by unfold pathOkChars; decide,
      Or.inl (by decide)⟩)).1

/-- C10, counterexample to the claim as stated.  The two URLs parse to
identical scheme, netloc and path but different queries (`a` versus `a `),
yet canonicalize to the same string: the path `//[/p` makes the inner
`urljoin` raise the invalid-IPv6 `ValueError`, so `_canonicalize_url` falls
back to returning the whitespace-stripped raw URL, and stripping erases the
query difference. -/
theorem canonical_query_c10_counterexample :
    urlparseE ("http://h//[/p?a" : String).data
      = .ok ⟨"http".data, "h".data, "//[/p".data, [], "a".data, []⟩
    ∧ urlparseE ("http://h//[/p?a " : String).data
      = .ok ⟨"http".data, "h".data, "//[/p".data, [], "a ".data, []⟩
    ∧ ("a" : String).data ≠ ("a " : String).data
    ∧ _canonicalize_url "http://h//[/p?a" = _canonicalize_url "http://h//[/p?a " := by
  refine ⟨by decide, by decide, by decide, by decide⟩

/-- Helper: with a non-empty query the reassembly is never empty. -/
theorem urlunparse_query_ne_nil (A B C q : List Char) (hq : q ≠ []) :
    urlunparseL A B C [] q [] ≠ [] := by
  unfold urlunparseL urlunsplitL
  intro hcon
  simp [hq] at hcon

/-- C10, amended: two URLs whose parses agree on scheme, netloc and path
but differ in the query canonicalize differently, provided the path
normalization succeeds (otherwise canonicalization falls back to the
stripped raw URL and the query is not part of the result at all).  Query
parameters are therefore part of the deduplication key, unlike fragment and
trailing slash. -/
theorem canonical_query_c10_amended (u1 u2 : String) (r1 r2 : ParseRes)
    (h1 : urlparseE u1.data = .ok r1) (h2 : urlparseE u2.data = .ok r2)
    (hscheme : r1.scheme = r2.scheme) (hnetloc : r1.netloc = r2.netloc)
    (hpath : r1.path = r2.path) (j : List Char)
    (hj : urljoinRootE r1.path = .ok j)
    (hquery : r1.query ≠ r2.query) :
    _canonicalize_url u1 ≠ _canonicalize_url u2 := by
  have hj2 : urljoinRootE r2.path = .ok j := by rw [← hpath]; exact hj
  by_cases hu1 : u1 = ""
  · have hd1 : u1.data = [] := by rw [hu1]
    rw [hd1, urlparseE_nil] at h1
    have hr1e : r1 = ⟨[], [], [], [], [], []⟩ := by
      cases h1
      rfl
    subst hr1e
    have hu2 : u2 ≠ "" := by
      intro he
      have hd2 : u2.data = [] := by rw [he]
      rw [hd2, urlparseE_nil] at h2
      have he2 : r2 = ⟨[], [], [], [], [], []⟩ := by
        cases h2
        rfl
      rw [he2] at hquery
      exact hquery rfl
    have hq2ne : r2.query ≠ [] := fun he => hquery (by rw [he])
    rw [canonicalize_eval u2 hu2 r2 h2 j hj2, hu1]
    intro hcon
    have hdata := congrArg String.data hcon
    exact urlunparse_query_ne_nil _ _ _ _ hq2ne hdata.symm
  · by_cases hu2 : u2 = ""
    · have hd2 : u2.data = [] := by rw [hu2]
      rw [hd2, urlparseE_nil] at h2
      have hr2e : r2 = ⟨[], [], [], [], [], []⟩ := by
        cases h2
        rfl
      subst hr2e
      have hq1ne : r1.query ≠ [] := hquery
      rw [canonicalize_eval u1 hu1 r1 h1 j hj, hu2]
      intro hcon
      have hdata := congrArg String.data hcon
      exact urlunparse_query_ne_nil _ _ _ _ hq1ne hdata
    · rw [canonicalize_eval u1 hu1 r1 h1 j hj,
        canonicalize_eval u2 hu2 r2 h2 j hj2, hscheme, hnetloc]
      intro hcon
      have hdata := congrArg String.data hcon
      exact hquery (urlunparse_query_inj _ _ _ _ _ hdata)

/-- C10, witness for the amended theorem. -/
theorem canonical_query_c10_amended_witness :
    _canonicalize_url "http://h/a?x=1" ≠ _canonicalize_url "http://h/a?x=2" :=
  canonical_query_c10_amended "http://h/a?x=1" "http://h/a?x=2"
    ⟨"http".data, "h".data, "/a".data, [], "x=1".data, []⟩
    ⟨"http".data, "h".data, "/a".data, [], "x=2".data, []⟩
    (by decide) (by decide) rfl rfl rfl ("/a".data) (by decide) (by decide)
